import Mathlib

/-!
Formal model of the text-run composition engine of this repository: the
element-tree rewriting logic of `rename_test.py` (field update by id) and
`fix_affinity_svg.py` (splitting literal back-slash-n markers into tspan line
runs).  Elements are modelled as a nested inductive tree; element tags are kept
as plain strings (a document without XML namespaces), and every Python string
operation used by the scripts is re-implemented on lists of characters so that
all definitions evaluate by kernel reduction.
-/

/-- An element of the parsed tree: tag, ordered attributes, leading text
payload (`.text`), trailing text (`.tail`), and ordered children.  `none`
models Python `None`, `some ""` models the empty string. -/
inductive Elem : Type where
  | mk (tag : String) (attrs : List (String × String)) (text : Option String)
      (tail : Option String) (children : List Elem)

def Elem.tag : Elem → String
  | .mk t _ _ _ _ => t

def Elem.attrs : Elem → List (String × String)
  | .mk _ a _ _ _ => a

def Elem.text : Elem → Option String
  | .mk _ _ x _ _ => x

def Elem.tail : Elem → Option String
  | .mk _ _ _ tl _ => tl

def Elem.children : Elem → List Elem
  | .mk _ _ _ _ cs => cs

@[simp] theorem Elem.tag_mk {t : String} {a : List (String × String)} {x tl : Option String}
    {cs : List Elem} : (Elem.mk t a x tl cs).tag = t := rfl

@[simp] theorem Elem.attrs_mk {t : String} {a : List (String × String)} {x tl : Option String}
    {cs : List Elem} : (Elem.mk t a x tl cs).attrs = a := rfl

@[simp] theorem Elem.text_mk {t : String} {a : List (String × String)} {x tl : Option String}
    {cs : List Elem} : (Elem.mk t a x tl cs).text = x := rfl

@[simp] theorem Elem.tail_mk {t : String} {a : List (String × String)} {x tl : Option String}
    {cs : List Elem} : (Elem.mk t a x tl cs).tail = tl := rfl

@[simp] theorem Elem.children_mk {t : String} {a : List (String × String)} {x tl : Option String}
    {cs : List Elem} : (Elem.mk t a x tl cs).children = cs := rfl

/-- The right-brace character, written numerically. -/
def rbraceChar : Char := Char.ofNat 125

/-- Helper for `localname`: characters after the last right brace (the whole
string when no brace occurs), mirroring `tag.split("}")[-1]`. -/
def localnameAux : List Char → List Char → List Char
  | acc, [] => acc.reverse
  | acc, c :: r => if c = rbraceChar then localnameAux [] r else localnameAux (c :: acc) r

/-- `localname` of `rename_test.py`: `tag.split("}")[-1] if "}" in tag else tag`. -/
def localname (t : String) : String :=
  String.mk (localnameAux [] t.data)

/-- First attribute value for a key, mirroring `element.get(key)`. -/
def lookupAttr : List (String × String) → String → Option String
  | [], _ => none
  | (k', v) :: rest, k => if k' = k then some v else lookupAttr rest k

def get_attr (e : Elem) (k : String) : Option String :=
  lookupAttr e.attrs k

/-- Replace the value of an existing key in place, else append, mirroring
`element.set(key, value)` (lxml keeps attribute order). -/
def setAttrList : List (String × String) → String → String → List (String × String)
  | [], k, v => [(k, v)]
  | (k', v') :: rest, k, v =>
    if k' = k then (k, v) :: rest else (k', v') :: setAttrList rest k v

def set_attr (e : Elem) (k v : String) : Elem :=
  Elem.mk e.tag (setAttrList e.attrs k v) e.text e.tail e.children

/-- The tag test of `rename_test.py`: `localname(node.tag) in ("text", "tspan")`. -/
def is_text_or_tspan (t : String) : Bool :=
  localname t = "text" || localname t = "tspan"

/-!
Field Locator.  `_find_text_or_tspan_descendant` keeps an explicit list,
pops from the front and pushes the popped node's children back **at the
front** (`stack[0:0] = list(node)`): each node is inspected, then its whole
subtree, then the remaining list — pre-order (document-order) traversal.
The mutual recursion below is that traversal written structurally.
-/

mutual

def findTTList : List Elem → Option Elem
  | [] => none
  | c :: rest =>
    match findTTNode c with
    | some r => some r
    | none => findTTList rest

def findTTNode : Elem → Option Elem
  | Elem.mk t a x tl cs =>
    if is_text_or_tspan t then some (Elem.mk t a x tl cs)
    else findTTList cs

end

/-- `_find_text_or_tspan_descendant(elem)`: first `text`/`tspan` descendant of
`elem` in the pre-order traversal of its subtree (the element itself is not a
candidate: the search starts from `list(elem)`). -/
def find_text_or_tspan_descendant (e : Elem) : Option Elem :=
  findTTList e.children

/-- Pre-order (document-order) listing of all strict descendants of the nodes
of a forest, each node before its own subtree, used as the specification of
document order. -/
def preorder_forest : List Elem → List Elem
  | [] => []
  | Elem.mk t a x tl cs :: rest =>
    Elem.mk t a x tl cs :: (preorder_forest cs ++ preorder_forest rest)

/-- The node test of the Field Locator's inner search, as a named predicate:
the node's tag has localname `text` or `tspan`. -/
def ttPred (n : Elem) : Bool := is_text_or_tspan n.tag

/-- Concrete tree refuting the breadth-first reading: a group whose first
child is a wrapper `g` holding a nested `text` (deep, earlier in document
order) and whose second child is a `text` directly (shallow, later). -/
def exC1 : Elem :=
  Elem.mk "g" [("id", "TITLE")] none none
    [Elem.mk "g" [] none none [Elem.mk "text" [] (some "DEEP") none []],
     Elem.mk "text" [] (some "SHALLOW") none []]

/-!
Paths.  The Python code mutates elements in place and distinguishes nodes by
object identity; functionally we address a node by the list of child indexes
leading to it, and in-place mutation of a found node becomes `modifyAtPath`.
-/

def getAtPath : Elem → List Nat → Option Elem
  | e, [] => some e
  | e, i :: p =>
    match e.children.get? i with
    | none => none
    | some c => getAtPath c p

def modifyChild : List Elem → Nat → (Elem → Elem) → List Elem
  | [], _, _ => []
  | c :: rest, 0, f => f c :: rest
  | c :: rest, i + 1, f => c :: modifyChild rest i f

def modifyAtPath : Elem → List Nat → (Elem → Elem) → Elem
  | e, [], f => f e
  | e, i :: p, f =>
    Elem.mk e.tag e.attrs e.text e.tail (modifyChild e.children i (fun c => modifyAtPath c p f))

/-!
Path-returning variant of the Field Locator's inner search, used to model
which node `_set_text` mutates after group indirection (`some []` from the
node search means the node itself is the first `text`/`tspan` in pre-order).
-/

mutual

def findTTPathList : Nat → List Elem → Option (List Nat)
  | _, [] => none
  | i, c :: rest =>
    match findTTPathNode c with
    | some p => some (i :: p)
    | none => findTTPathList (i + 1) rest

def findTTPathNode : Elem → Option (List Nat)
  | Elem.mk t _ _ _ cs =>
    if is_text_or_tspan t then some [] else findTTPathList 0 cs

end

def find_tt_path (e : Elem) : Option (List Nat) :=
  findTTPathList 0 e.children

/-!
`_clear_all_text_descendants(elem, except_node)`.  The source walks every
strict descendant with the same front-popping, front-pushing list as the
locator; for a visited `text`/`tspan` node other than the exception it sets
`node.text = ""`, `node.tail = ""` and, for each direct child, `ch.text = ""`
and `ch.tail = ""`.  Every write stores the empty string and the exception
only skips that node's own block (its children are still walked), so the
final state of each node depends only on (a) whether the node itself is a
non-exception `text`/`tspan` and (b) whether its parent is one; the recursion
below passes (b) down as `parentC` and is the order-independent rendering of
the same final state.
-/

mutual

def clearDesc : Elem → List Nat → List Nat → Bool → Elem
  | Elem.mk t a x tl cs, path, exc, parentC =>
    let sc := is_text_or_tspan t && decide (path ≠ exc)
    Elem.mk t a (if sc || parentC then some "" else x)
      (if sc || parentC then some "" else tl)
      (clearDescChildren cs 0 path exc sc)

def clearDescChildren : List Elem → Nat → List Nat → List Nat → Bool → List Elem
  | [], _, _, _, _ => []
  | c :: rest, i, path, exc, pc =>
    clearDesc c (path ++ [i]) exc pc :: clearDescChildren rest (i + 1) path exc pc

end

/-- The element passed to `_clear_all_text_descendants` is itself never
visited (the walk starts from its children), so only its children are
transformed. -/
def clear_all_text_descendants (e : Elem) (exc : List Nat) : Elem :=
  Elem.mk e.tag e.attrs e.text e.tail (clearDescChildren e.children 0 [] exc false)

/-- `_apply_value_to_node(node, value)`: set the node's text, blank the text
and tail of each direct child, blank the node's own tail. -/
def apply_value_to_node (n : Elem) (v : String) : Elem :=
  Elem.mk n.tag n.attrs (some v) (some "")
    (n.children.map (fun c => Elem.mk c.tag c.attrs (some "") (some "") c.children))

/-- The tag test of `_children_tspans`: localname equal to `tspan`. -/
def tspanPred (c : Elem) : Bool := localname c.tag = "tspan"

/-- `_children_tspans(e)`: direct children whose localname is `tspan`. -/
def children_tspans (e : Elem) : List Elem :=
  e.children.filter tspanPred

/-- Helper for splitting a string on a single character, mirroring Python
`str.split(sep)` for a one-character separator. -/
def splitCharAux (sep : Char) : List Char → List (List Char)
  | [] => [[]]
  | c :: r =>
    if c = sep then [] :: splitCharAux sep r
    else
      match splitCharAux sep r with
      | [] => [[c]]
      | p :: ps => (c :: p) :: ps

/-- `value.split("\n")` of `_set_text`: split on the line-feed character. -/
def split_on_linefeed (s : String) : List String :=
  (splitCharAux (Char.ofNat 10) s.data).map String.mk

/-- The per-tspan distribution loop of `_set_text`'s `text` branch: the k-th
`tspan` child (counting only tspans, in order) receives line k, or the empty
string when there are fewer lines, via `_apply_value_to_node`; non-tspan
children are left as they are. -/
def distributeLines (lines : List String) : List Elem → Nat → List Elem
  | [], _ => []
  | c :: rest, i =>
    if tspanPred c then
      apply_value_to_node c (lines.getD i "") :: distributeLines lines rest (i + 1)
    else c :: distributeLines lines rest i

/-- The body of `_set_text` after group indirection: dispatch on the (local)
tag of the element being written.  A `tspan` gets the whole value; a `text`
with no tspan children gets the value as its own text; a `text` with tspan
children distributes the line-feed-split lines over the existing tspans
(surplus tspans blanked, surplus lines dropped) and clears its own text; any
other element gets the value as its text (the fallback of `_set_text`). -/
def set_text_target (e : Elem) (v : String) : Elem :=
  if localname e.tag = "tspan" then apply_value_to_node e v
  else if localname e.tag = "text" then
    if (children_tspans e).isEmpty then Elem.mk e.tag e.attrs (some v) e.tail e.children
    else Elem.mk e.tag e.attrs none e.tail (distributeLines (split_on_linefeed v) e.children 0)
  else Elem.mk e.tag e.attrs (some v) e.tail e.children

/-- `_set_text(elem, value)`: when the located element is a `g`, find the
first `text`/`tspan` descendant in pre-order; do nothing if there is none;
otherwise clear all other text-bearing descendants of the group and write
into the found target. -/
def set_text (e : Elem) (v : String) : Elem :=
  if localname e.tag = "g" then
    match find_tt_path e with
    | none => e
    | some p => modifyAtPath (clear_all_text_descendants e p) p (fun t => set_text_target t v)
  else set_text_target e v

/-!
`_find_by_id(root, elem_id)` is `root.find(".//*[@id='...']")`: the first
strict descendant of the root, in document order, whose `id` attribute equals
the requested identifier.
-/

mutual

def findIdList : Nat → List Elem → String → Option (List Nat)
  | _, [], _ => none
  | i, c :: rest, eid =>
    match findIdNode c eid with
    | some p => some (i :: p)
    | none => findIdList (i + 1) rest eid

def findIdNode : Elem → String → Option (List Nat)
  | Elem.mk _ a _ _ cs, eid =>
    if lookupAttr a "id" = some eid then some [] else findIdList 0 cs eid

end

def find_by_id (root : Elem) (eid : String) : Option (List Nat) :=
  findIdList 0 root.children eid

/-- `set_text_by_id(root, field_id, value)`: `False` (no write) when the id is
absent, else write through `_set_text` and report `True` — note the report
says only that the id was found, not that any text was written. -/
def set_text_by_id (root : Elem) (field_id v : String) : Elem × Bool :=
  match find_by_id root field_id with
  | none => (root, false)
  | some p => (modifyAtPath root p (fun e => set_text e v), true)

/-- The field-update phase of `main` (lines 204-212): apply the TITLE write
when requested, then the DESCRIPTION write, OR-ing the found flags; the
warning is printed exactly when the resulting flag is `false`, and no branch
exits with failure. -/
def main_update (root : Elem) (title desc : Option String) : Elem × Bool :=
  let s1 :=
    match title with
    | none => (root, false)
    | some v => set_text_by_id root "TITLE" v
  match desc with
  | none => s1
  | some v =>
    let r := set_text_by_id s1.1 "DESCRIPTION" v
    (r.1, s1.2 || r.2)

/-!
Model of `fix_affinity_svg.py`.  Numeric values (font sizes, line heights)
are modelled as exact non-negative fractions — numerator and denominator,
not normalized; the only formatted line-height value any theorem evaluates
is the integral `12.0` (from a declared `font-size:10px`), where binary
floating point and exact arithmetic agree.
-/

/-- An exact non-negative fraction: numerator and (positive) denominator. -/
abbrev Frac := Nat × Nat

/-- Python whitespace characters (the `\s` class / `str.strip()` set, ASCII). -/
def isPyWs (c : Char) : Bool :=
  c = ' ' || c = Char.ofNat 9 || c = Char.ofNat 10 || c = Char.ofNat 13 ||
    c = Char.ofNat 12 || c = Char.ofNat 11

/-- Boolean prefix test on character lists. -/
def pfxB : List Char → List Char → Bool
  | [], _ => true
  | _ :: _, [] => false
  | a :: as, b :: bs => a = b && pfxB as bs

/-- Strip an expected literal prefix, returning the remainder on success. -/
def stripLit : List Char → List Char → Option (List Char)
  | [], s => some s
  | _ :: _, [] => none
  | l :: ls, c :: cr => if c = l then stripLit ls cr else none

/-- Boolean substring test: does `l` occur contiguously inside `s`? -/
def occursIn (l : List Char) : List Char → Bool
  | [] => pfxB l []
  | c :: r => pfxB l (c :: r) || occursIn l r

def isAsciiDigit (c : Char) : Bool := '0' ≤ c && c ≤ '9'

def isDigitDot (c : Char) : Bool := isAsciiDigit c || c = '.'

def digitsToNat (ds : List Char) : Nat :=
  ds.foldl (fun n c => n * 10 + (c.toNat - 48)) 0

/-- Python `float()` on a string of digits and dots: at most one dot, at
least one digit (accepts `10`, `10.`, `.5`; rejects `.`, `1.2.3`). -/
def pyFloatOfChars (ds : List Char) : Option Frac :=
  match splitCharAux '.' ds with
  | [a] => if a ≠ [] && a.all isAsciiDigit then some (digitsToNat a, 1) else none
  | [a, b] =>
    if (a ≠ [] || b ≠ []) && a.all isAsciiDigit && b.all isAsciiDigit then
      some (digitsToNat a * 10 ^ b.length + digitsToNat b, 10 ^ b.length)
    else none
  | _ => none

/-- Try the regex `font-size\s*:\s*([0-9.]+)px` at the head of `s`,
returning the captured digit run.  The `[0-9.]+` run is greedy and its
characters can never begin `px`, and `\s*` can never give back a character
that `:` would accept, so the backtracking-free maximal-munch scan below
matches exactly when the regex does. -/
def fsAt (s : List Char) : Option (List Char) :=
  match stripLit ("font-size".data) s with
  | none => none
  | some s1 =>
    match s1.dropWhile isPyWs with
    | ':' :: s3 =>
      let s4 := s3.dropWhile isPyWs
      let run := s4.takeWhile isDigitDot
      if run = [] then none
      else
        match stripLit ("px".data) (s4.drop run.length) with
        | some _ => some run
        | none => none
    | _ => none

/-- `re.search`: first position where the whole pattern matches. -/
def fsSearch : List Char → Option (List Char)
  | [] => none
  | c :: r =>
    match fsAt (c :: r) with
    | some run => some run
    | none => fsSearch r

/-- `parse_font_size(style_attr)`: `None` for a missing or empty style;
otherwise the first regex match, with `float()` failure (e.g. `1.2.3`)
giving `None`. -/
def parse_font_size (style : Option String) : Option Frac :=
  match style with
  | none => none
  | some st =>
    if st = "" then none
    else
      match fsSearch st.data with
      | none => none
      | some run => pyFloatOfChars run

/-- `get_text_x(element)`: the first whitespace-separated token of a present,
non-empty `x` attribute (`x.strip().split()` then the first part), else `None`. -/
def get_text_x (e : Elem) : Option String :=
  match get_attr e "x" with
  | none => none
  | some x =>
    if x = "" then none
    else
      let tok := (x.data.dropWhile isPyWs).takeWhile (fun c => !isPyWs c)
      if tok = [] then none else some (String.mk tok)

/-- The literal property name matched by the sanitizer's regex. -/
def litWS : List Char := "white-space".data

/-- Try the regex `white-space\s*:\s*[^;]+;?` at the head of `s`, returning
the remainder after the match.  `\s*[^;]+` together match exactly a
non-empty run of non-semicolon characters (whitespace is not `;`), greedily,
so the scan below needs no backtracking. -/
def tryWSAfterColon (s3 : List Char) : Option (List Char) :=
  if s3.takeWhile (fun x => x ≠ ';') = [] then none
  else
    match s3.drop (s3.takeWhile (fun x => x ≠ ';')).length with
    | [] => some []
    | c5 :: s5 => if c5 = ';' then some s5 else some (c5 :: s5)

def tryWSAfterLit (s1 : List Char) : Option (List Char) :=
  match s1.dropWhile isPyWs with
  | [] => none
  | c :: s3 => if c = ':' then tryWSAfterColon s3 else none

def tryWS (s : List Char) : Option (List Char) :=
  match stripLit litWS s with
  | none => none
  | some s1 => tryWSAfterLit s1

/-- `re.sub(r'white-space\s*:\s*[^;]+;?', '', s)`: left-to-right scan,
deleting each leftmost match and continuing after it.  The fuel argument (at
least the length of the list) only makes the recursion structural; each step
consumes at least one character. -/
def wsSubFuel : Nat → List Char → List Char
  | 0, s => s
  | _ + 1, [] => []
  | f + 1, c :: r =>
    match tryWS (c :: r) with
    | some rem => wsSubFuel f rem
    | none => c :: wsSubFuel f r

def wsSub (s : List Char) : List Char := wsSubFuel s.length s

/-- `re.sub(r';{2,}', ';', s)`: every maximal run of semicolons becomes a
single semicolon (runs of one are unchanged). -/
def collapseSemisGo : Bool → List Char → List Char
  | _, [] => []
  | prev, c :: r =>
    if c = ';' then
      if prev then collapseSemisGo true r else ';' :: collapseSemisGo true r
    else c :: collapseSemisGo false r

/-- Python `str.strip` with an explicit character class. -/
def pyStrip (p : Char → Bool) (s : List Char) : List Char :=
  ((s.dropWhile p).reverse.dropWhile p).reverse

/-- `clean_white_space_in_style(style_attr)`: remove every match of the
`white-space` declaration pattern, collapse repeated semicolons, strip
whitespace, then strip leading and trailing `;` and space characters. -/
def clean_white_space_in_style (st : String) : String :=
  if st = "" then st
  else
    String.mk (pyStrip (fun c => c = ';' || c = ' ')
      (pyStrip isPyWs (collapseSemisGo false (wsSub st.data))))

/-- The two-character escape marker: a backslash followed by the letter n. -/
def markerChars : List Char := ['\\', 'n']

/-- Substring test `"\\n" in text`. -/
def containsMarker (s : List Char) : Bool := occursIn markerChars s

/-- `text.split("\\n")`: split on the literal two-character escape marker,
leftmost-first (the marker cannot overlap itself). -/
def splitMarkerAux : List Char → List (List Char)
  | [] => [[]]
  | [c] => [[c]]
  | c :: d :: r =>
    if c = '\\' && d = 'n' then [] :: splitMarkerAux r
    else
      match splitMarkerAux (d :: r) with
      | [] => [[c]]
      | p :: ps => (c :: p) :: ps

def split_marker (s : String) : List String :=
  (splitMarkerAux s.data).map String.mk

/-- Number of positions at which the escape marker occurs in `s`. -/
def marker_occurrences : List Char → Nat
  | [] => 0
  | c :: r => (if pfxB markerChars (c :: r) then 1 else 0) + marker_occurrences r

/-- Python float formatting of the line height (`f"{line_height_px}px"`
without the unit).  For a value with denominator 1 — the only kind any
theorem here evaluates — CPython prints `N.0`, and the float product that
produces it (`10 * 1.2`) is exactly representable, so exact rationals agree
with the float computation.  Non-integral values are rendered as fractions;
they arise only through the `12.0`-fallback path, which no claim evaluates
(there binary floating point deviates from exact arithmetic anyway). -/
def py_float_repr (q : Frac) : String :=
  if q.1 % q.2 = 0 then toString (q.1 / q.2) ++ ".0"
  else toString q.1 ++ "/" ++ toString q.2

/-- One new `tspan` of `split_into_tspans`: `x` set when `base_x` is not
`None`, `dy` set (to the formatted line height) only for lines after the
first, text set to the line (possibly empty). -/
def mkLineTspan (bx : Option String) (dyStr : String) (i : Nat) (line : String) : Elem :=
  Elem.mk "tspan"
    ((match bx with | some xv => [("x", xv)] | none => []) ++
      (if 0 < i then [("dy", dyStr)] else []))
    (some line) none []

def buildTspans (bx : Option String) (dyStr : String) : Nat → List String → List Elem
  | _, [] => []
  | i, line :: rest => mkLineTspan bx dyStr i line :: buildTspans bx dyStr (i + 1) rest

/-- `split_into_tspans(el, text, base_x, line_height_px)`: split the text on
the escape marker, set `el.text = None`, and append one `tspan` per line
after the existing children (the code's comment says children are cleared,
but no removal is performed — `el.append` only adds). -/
def split_into_tspans (e : Elem) (text : String) (bx : Option String) (lh : Frac) : Elem :=
  Elem.mk e.tag e.attrs none e.tail
    (e.children ++ buildTspans bx (py_float_repr lh ++ "px") 0 (split_marker text))

/-- Python truthiness fallback `a or dflt` for an optional float: `None` and
`0.0` both fall through to the default. -/
def py_or_float (a : Option Frac) (dflt : Frac) : Frac :=
  match a with
  | some q => if q.1 = 0 then dflt else q
  | none => dflt

/-- Multiplication by the crude line-height factor `1.2 = 6/5`. -/
def mulLineFactor (q : Frac) : Frac := (6 * q.1, 5 * q.2)

/-- `child.tag.endswith("tspan")`. -/
def endsWithTspan (t : String) : Bool := pfxB ("tspan".data).reverse t.data.reverse

/-- One replacement `tspan` of the child-scan branch of `process_text_node`:
`x` from the replaced child (or the parent fallback), the original `dy` kept
on the first line when truthy, the recomputed line height on later lines. -/
def buildScanTspans (x : Option String) (dyF : Option String) (dyStr : String) :
    Nat → List String → List Elem
  | _, [] => []
  | j, line :: rest =>
    Elem.mk "tspan"
      ((match x with | some xv => [("x", xv)] | none => []) ++
        (if j = 0 then
          (match dyF with
           | some d => if d = "" then [] else [("dy", d)]
           | none => [])
        else [("dy", dyStr)]))
      (some line) none [] :: buildScanTspans x dyF dyStr (j + 1) rest

/-- Replacement sequence for one marker-bearing `tspan` child. -/
def rebuildChild (bx : Option String) (fs : Option Frac) (c : Elem) : List Elem :=
  let lines := split_marker (c.text.getD "")
  let dyFirst := get_attr c "dy"
  let xChild :=
    match get_attr c "x" with
    | some s => if s = "" then bx else some s
    | none => bx
  let childLh := mulLineFactor (py_or_float (parse_font_size (get_attr c "style")) (py_or_float fs (12, 1)))
  buildScanTspans xChild dyFirst (py_float_repr childLh ++ "px") 0 lines

/-- The child scan of `process_text_node`: each direct child whose tag ends
in `tspan` and whose text contains the marker is replaced, in place, by the
tspans of its split; the source iterates over a snapshot of the children and
re-inserts at the removed child's live index, which is exactly in-place
replacement. -/
def scanChildren (bx : Option String) (fs : Option Frac) : List Elem → List Elem × Bool
  | [] => ([], false)
  | c :: rest =>
    let r := scanChildren bx fs rest
    if endsWithTspan c.tag &&
        (match c.text with | some ct => containsMarker ct.data | none => false) then
      (rebuildChild bx fs c ++ r.1, true)
    else (c :: r.1, r.2)

/-- The namespace-qualified `xml:space` attribute key. -/
def xmlSpaceKey : String := "\x7bhttp://www.w3.org/XML/1998/namespace\x7dspace"

/-- `process_text_node(text_el)`: read style and font size, set
`xml:space="preserve"`, clean a `white-space` declaration from the style
when present, then either split marker-bearing direct text into new tspans
(returning immediately) or rebuild marker-bearing `tspan` children. -/
def process_text_node (e : Elem) : Elem × Bool :=
  let styleAttr := get_attr e "style"
  let fontSize := parse_font_size styleAttr
  let lineHeight := mulLineFactor (py_or_float fontSize (12, 1))
  let baseX := get_text_x e
  let e1 := set_attr e xmlSpaceKey "preserve"
  let e2 :=
    match styleAttr with
    | none => e1
    | some st =>
      if st ≠ "" && occursIn litWS st.data then
        (if clean_white_space_in_style st ≠ st
         then set_attr e1 "style" (clean_white_space_in_style st) else e1)
      else e1
  match e2.text with
  | some txt =>
    if containsMarker txt.data then (split_into_tspans e2 txt baseX lineHeight, true)
    else
      let p := scanChildren baseX fontSize e2.children
      (Elem.mk e2.tag e2.attrs e2.text e2.tail p.1, p.2)
  | none =>
    let p := scanChildren baseX fontSize e2.children
    (Elem.mk e2.tag e2.attrs e2.text e2.tail p.1, p.2)

/-!
The whole-document pass of `main`.  For a document without XML namespaces the
`//svg:text` XPath loop selects nothing and `root.findall(".//{*}text")`
selects every `text` element strictly below the root, once, in document
order.  Processing one `text` element rewrites only its own text, attributes
and direct children and never creates or removes `text` elements, so the
snapshot iteration of `findall` is equivalent to the bottom-up structural
recursion below (a parent's child scan looks only at `tspan`-tagged children,
which processing a nested `text` element never alters).
-/

mutual

def normalizeElem : Elem → Elem
  | Elem.mk t a x tl cs =>
    let e' := Elem.mk t a x tl (normalizeList cs)
    if localname t = "text" then (process_text_node e').1 else e'

def normalizeList : List Elem → List Elem
  | [] => []
  | c :: rest => normalizeElem c :: normalizeList rest

end

/-- One run of `main`'s transform on a (namespace-free) document: every
`text` element strictly below the root is processed once. -/
def normalize_document (root : Elem) : Elem :=
  Elem.mk root.tag root.attrs root.text root.tail (normalizeList root.children)

/-!
Concrete documents used by the claim theorems.
-/

/-- A Content element with two existing LineRuns, as in the DESCRIPTION
scenario of the specification. -/
def exC3 : Elem :=
  Elem.mk "text" [("id", "DESCRIPTION")] none none
    [Elem.mk "tspan" [] (some "OLD1") none [], Elem.mk "tspan" [] (some "OLD2") none []]

/-- A Content element with marker-bearing direct text and one pre-existing
tspan child. -/
def exC2 : Elem :=
  Elem.mk "text" [] (some "A\\nB") none [Elem.mk "tspan" [("dy", "5px")] (some "OLD") none []]

/-- A document whose single text element has marker-bearing direct text and a
marker-bearing tspan child. -/
def exC5 : Elem :=
  Elem.mk "svg" [] none none
    [Elem.mk "text" [] (some "X\\nY") none [Elem.mk "tspan" [] (some "C\\nD") none []]]

/-- The specification's splitting scenario: declared font-size 10px, text
payload with three escape markers (one doubled). -/
def exC6 : Elem :=
  Elem.mk "text" [("style", "font-size:10px")] (some "Line A\\nLine B\\n\\nLine D") none []

/-- A Content element with no children at all. -/
def exC4 : Elem := Elem.mk "text" [("x", "7")] none none []

/-- A document with no TITLE element and a DESCRIPTION bound to a group with
no text-bearing descendant. -/
def exC8 : Elem :=
  Elem.mk "svg" [] none none [Elem.mk "g" [("id", "DESCRIPTION")] none none []]

/-- A group whose locator target is a text element that itself has a tspan
child, next to a sibling text element carrying text and tail. -/
def exC10 : Elem :=
  Elem.mk "g" [("id", "TITLE")] none none
    [Elem.mk "text" [] (some "keep") none [Elem.mk "tspan" [] (some "OLD") none []],
     Elem.mk "text" [] (some "SIDE") (some "tailS") []]

/-!
Text Writer (claims about `_set_text` on a `text` element with existing
LineRuns).
-/

/-- Reference form of the distribution loop restricted to the tspans
themselves: the tspan at position `k` (among tspans) receives line `i + k`,
or the empty string past the last line. -/
def mapDist (lines : List String) : Nat → List Elem → List Elem
  | _, [] => []
  | i, t :: ts => apply_value_to_node t (lines.getD i "") :: mapDist lines (i + 1) ts

/-- The no-dual-text invariant of the data model: a non-empty leading text
payload never coexists with a text-bearing LineRun child. -/
def no_dual_text (e : Elem) : Prop :=
  ∀ s, e.text = some s → s ≠ "" → ∀ c ∈ e.children, tspanPred c → ∀ s', c.text = some s' → s' = ""

/-!
Style Sanitizer: behaviour of `clean_white_space_in_style` on a well-formed
declaration list.  A style string is rendered as `name:value` declarations
joined by single semicolons; `plainChar` names the characters that keep the
textual removal aligned with declaration boundaries.
-/

def declChars (d : String × String) : List Char := d.1.data ++ ':' :: d.2.data

def interSemi : List (List Char) → List Char
  | [] => []
  | [x] => x
  | x :: y :: rest => x ++ ';' :: interSemi (y :: rest)

def renderStyle (ds : List (String × String)) : String :=
  String.mk (interSemi (ds.map declChars))

/-- A character that is neither Python whitespace nor a semicolon. -/
def plainChar (c : Char) : Bool := !isPyWs c && !(c = ';')

/-- A declaration the sanitizer treats at declaration granularity: non-empty
name and value of plain characters, and — unless the name is exactly
`white-space` — no occurrence of the literal `white-space` anywhere in its
text. -/
def okDecl (d : String × String) : Bool :=
  !d.1.data.isEmpty && !d.2.data.isEmpty &&
    d.1.data.all plainChar && d.2.data.all plainChar &&
    (d.1 == "white-space" || !occursIn litWS (declChars d))

/-- The value of `wsSub` on a rendered declaration list: each `white-space`
declaration is consumed together with the semicolon that follows it, other
declarations are copied; a trailing removed declaration leaves the preceding
semicolon in place. -/
def wsSubSpec : List (String × String) → List Char
  | [] => []
  | d :: rest =>
    if d.1 = "white-space" then wsSubSpec rest
    else declChars d ++ (if rest.isEmpty then [] else ';' :: wsSubSpec rest)

def noDblB : List Char → Bool
  | [] => true
  | [_] => true
  | c :: d :: r => !(c = ';' && d = ';') && noDblB (d :: r)

/-- Characters occurring inside a rendered declaration: plain characters or
the name-value colon. -/
def goodChar (c : Char) : Bool := plainChar c || (c = ':')

/-- The declarations surviving the claimed white-space removal. -/
def filterNonWS (ds : List (String × String)) : List (String × String) :=
  ds.filter (fun d => !(d.1 == "white-space"))

theorem find?_ttPred_cons (n : Elem) (l : List Elem) :
    (n :: l).find? ttPred = if ttPred n then some n else l.find? ttPred := by
  by_cases h : ttPred n
  · rw [if_pos h]; exact List.find?_cons_of_pos _ h
  · rw [if_neg h]; exact List.find?_cons_of_neg _ h

mutual

theorem findTTList_eq_find? : ∀ cs : List Elem,
    findTTList cs = (preorder_forest cs).find? ttPred
  | [] => by simp [findTTList, preorder_forest]
  | Elem.mk t a x tl cs :: rest => by
    rw [findTTList, preorder_forest, findTTNode_eq_find? (Elem.mk t a x tl cs),
      findTTList_eq_find? rest]
    simp only [Elem.children_mk]
    rw [find?_ttPred_cons, find?_ttPred_cons, List.find?_append]
    by_cases h : ttPred (Elem.mk t a x tl cs)
    · rw [if_pos h, if_pos h]
    · rw [if_neg h, if_neg h]
      cases (preorder_forest cs).find? ttPred <;> rfl

theorem findTTNode_eq_find? : ∀ e : Elem,
    findTTNode e = ((e :: preorder_forest e.children).find? ttPred)
  | Elem.mk t a x tl cs => by
    rw [findTTNode]
    simp only [Elem.children_mk]
    rw [find?_ttPred_cons]
    by_cases h : is_text_or_tspan t
    · have h2 : ttPred (Elem.mk t a x tl cs) = true := h
      rw [if_pos h, if_pos h2]
    · have h2 : ¬ ttPred (Elem.mk t a x tl cs) = true := h
      rw [if_neg h, if_neg h2]
      exact findTTList_eq_find? cs

end

/-- C1 counterexample: the claim says the inner search of a Group's subtree is
breadth-first, preferring the shallow `text` child (`"SHALLOW"`, depth 1) over
a deeper descendant earlier in document order (`"DEEP"`, depth 2).  The code's
search (`_find_text_or_tspan_descendant`) pops from the front of the list but
also pushes children at the front, i.e. it is depth-first pre-order, and on
this tree returns the deep node, not the shallow one. -/
theorem c1_bfs_counterexample :
    (find_text_or_tspan_descendant exC1).map Elem.text = some (some "DEEP") ∧
    (find_text_or_tspan_descendant exC1).map Elem.text ≠ some (some "SHALLOW") ∧
    ((exC1.children.get? 1).map (fun c => is_text_or_tspan c.tag)) = some true := by
  refine ⟨by decide, by decide, by decide⟩

/-- C1 amended: the inner search of the Group's subtree is depth-first
pre-order, i.e. it returns the first `text`/`tspan` descendant in document
order (so a deeper descendant that comes earlier in document order is
preferred over a shallower later sibling; a Group containing exactly one
nested Content element still resolves to that Content element). -/
theorem c1_dfs_document_order (e : Elem) :
    find_text_or_tspan_descendant e = (preorder_forest e.children).find? ttPred :=
  findTTList_eq_find? e.children

/-- C2 (code bug): `split_into_tspans` is documented — in its own comment,
`Clear direct text and children` — and specified to replace any previous
children, but the code only clears `el.text` and then appends; on a Content
element with text `A\nB` (literal marker) and one pre-existing child
`"OLD"`, the result keeps `"OLD"` as its first child followed by the two new
LineRuns, instead of holding exactly the two new LineRuns. -/
theorem c2_split_retains_children :
    (split_into_tspans exC2 "A\\nB" none (12, 1)).children.map Elem.text
      = [some "OLD", some "A", some "B"] ∧
    (split_into_tspans exC2 "A\\nB" none (12, 1)).text = none :=
  ⟨by decide, by decide⟩

/-- C5 (code bug): one pass over `exC5` splits only the direct text of the
text element and — because `split_into_tspans` retains previous children,
contrary to its own comment — keeps the marker-bearing tspan `"C\nD"`, so the
element has 3 children after one pass and a second pass splits the retained
tspan, giving 4: normalization is not idempotent. -/
theorem c5_normalize_not_idempotent :
    ((normalize_document exC5).children.get? 0).map (fun e => e.children.length) = some 3 ∧
    ((normalize_document (normalize_document exC5)).children.get? 0).map
      (fun e => e.children.length) = some 4 ∧
    normalize_document (normalize_document exC5) ≠ normalize_document exC5 := by
  refine ⟨by decide, by decide, ?_⟩
  intro h
  have h2 : ((normalize_document (normalize_document exC5)).children.get? 0).map
        (fun e => e.children.length)
      = ((normalize_document exC5).children.get? 0).map (fun e => e.children.length) := by
    rw [h]
  revert h2
  decide

/-- C6 counterexample: on the 10px scenario the first LineRun carries no
vertical-offset attribute at all (the code sets `dy` only for `i > 0`), and
the later LineRuns carry `"12.0px"` (Python float formatting), not `"12px"`:
the claimed attribute sequence `0, 12px, 12px, 12px` is not produced. -/
theorem c6_offsets_counterexample :
    ¬ ((process_text_node exC6).1.children.map (fun c => get_attr c "dy")
        = [some "0", some "12px", some "12px", some "12px"]) := by decide

/-- C6 amended: on a Content element whose style declares font-size 10px,
splitting the payload `"Line A\nLine B\n\nLine D"` (literal markers) yields
exactly 4 LineRuns holding `"Line A"`, `"Line B"`, `""`, `"Line D"`; the
first LineRun carries no vertical-offset attribute and each later one
carries `dy = "12.0px"` — the line height `1.2 × 10` formatted as a Python
float with the px unit (the 12.0-per-line default applies when no pixel font
size is declared); the element's own text is cleared. -/
theorem c6_scenario_amended :
    (process_text_node exC6).2 = true ∧
    (process_text_node exC6).1.children.map Elem.text
      = [some "Line A", some "Line B", some "", some "Line D"] ∧
    (process_text_node exC6).1.children.map (fun c => get_attr c "dy")
      = [none, some "12.0px", some "12.0px", some "12.0px"] ∧
    (process_text_node exC6).1.text = none :=
  ⟨by decide, by decide, by decide, by decide⟩

/-- C7 counterexample: the sanitizer's removal is a textual regex over the
style string, not anchored at declaration boundaries.  In
`"xwhite-space:foo;white-space:pre;color:red"` — which contains a
`white-space` declaration — it also deletes the tail of the *different*
declaration `xwhite-space:foo` and fuses its residue with the next
declaration, producing `"xcolor:red"` instead of leaving
`"xwhite-space:foo;color:red"` with the other declarations byte-identical. -/
theorem c7_sanitizer_counterexample :
    clean_white_space_in_style "xwhite-space:foo;white-space:pre;color:red" = "xcolor:red" ∧
    clean_white_space_in_style "xwhite-space:foo;white-space:pre;color:red"
      ≠ "xwhite-space:foo;color:red" :=
  ⟨by decide, by decide⟩

theorem tag_apply_value (c : Elem) (v : String) : (apply_value_to_node c v).tag = c.tag := rfl

theorem text_apply_value (c : Elem) (v : String) : (apply_value_to_node c v).text = some v := rfl

theorem tspanPred_apply_value (c : Elem) (v : String) :
    tspanPred (apply_value_to_node c v) = tspanPred c := rfl

theorem distributeLines_length (lines : List String) :
    ∀ (cs : List Elem) (i : Nat), (distributeLines lines cs i).length = cs.length
  | [], _ => rfl
  | c :: rest, i => by
    rw [distributeLines]
    by_cases h : tspanPred c
    · rw [if_pos h]
      simp [distributeLines_length lines rest (i + 1)]
    · rw [if_neg h]
      simp [distributeLines_length lines rest i]

theorem distributeLines_filter (lines : List String) :
    ∀ (cs : List Elem) (i : Nat),
      (distributeLines lines cs i).filter tspanPred = mapDist lines i (cs.filter tspanPred)
  | [], _ => rfl
  | c :: rest, i => by
    rw [distributeLines]
    by_cases h : tspanPred c
    · rw [if_pos h, List.filter_cons_of_pos (by rw [tspanPred_apply_value]; exact h),
        List.filter_cons_of_pos h, mapDist, distributeLines_filter lines rest (i + 1)]
    · rw [if_neg h, List.filter_cons_of_neg h, List.filter_cons_of_neg h,
        distributeLines_filter lines rest i]

theorem mapDist_get? (lines : List String) :
    ∀ (ts : List Elem) (i k : Nat),
      (mapDist lines i ts).get? k = (ts.get? k).map
        (fun t => apply_value_to_node t (lines.getD (i + k) ""))
  | [], _, _ => by simp [mapDist]
  | t :: ts, i, 0 => by simp [mapDist]
  | t :: ts, i, k + 1 => by
    rw [mapDist]
    show (mapDist lines (i + 1) ts).get? k = _
    rw [mapDist_get? lines ts (i + 1) k]
    simp [Nat.add_assoc, Nat.add_comm 1 k]

theorem mapDist_length (lines : List String) :
    ∀ (ts : List Elem) (i : Nat), (mapDist lines i ts).length = ts.length
  | [], _ => rfl
  | t :: ts, i => by rw [mapDist]; simp [mapDist_length lines ts (i + 1)]

/-- Unfolding of `_set_text` on a `text` element that has tspan children. -/
theorem set_text_text_of_tspans (e : Elem) (v : String)
    (htag : localname e.tag = "text") (hts : (children_tspans e).isEmpty = false) :
    set_text e v
      = Elem.mk e.tag e.attrs none e.tail
          (distributeLines (split_on_linefeed v) e.children 0) := by
  rw [set_text, if_neg (by rw [htag]; decide), set_text_target,
    if_neg (by rw [htag]; decide), if_pos htag,
    if_neg (by simp [hts])]

/-- C3: writing a value into a Content element with N existing LineRuns
splits the value on line feeds and distributes line k to LineRun k; LineRuns
past the last line are blanked, lines past the last LineRun are dropped (the
child count and the LineRun count are both unchanged), and the element's own
leading text is cleared. -/
theorem c3_write_text_distributes (e : Elem) (v : String)
    (htag : localname e.tag = "text") (hts : (children_tspans e).isEmpty = false) :
    (set_text e v).text = none ∧
    (set_text e v).children.length = e.children.length ∧
    (children_tspans (set_text e v)).length = (children_tspans e).length ∧
    ∀ k : Nat, ((children_tspans (set_text e v)).get? k).map Elem.text
      = ((children_tspans e).get? k).map (fun _ => some ((split_on_linefeed v).getD k "")) := by
  rw [set_text_text_of_tspans e v htag hts]
  refine ⟨rfl, ?_, ?_, ?_⟩
  · simp [distributeLines_length]
  · show ((distributeLines (split_on_linefeed v) e.children 0).filter tspanPred).length = _
    rw [distributeLines_filter, mapDist_length]
    rfl
  · intro k
    show (((distributeLines (split_on_linefeed v) e.children 0).filter tspanPred).get? k).map
        Elem.text = _
    rw [distributeLines_filter, mapDist_get?, children_tspans]
    cases (e.children.filter tspanPred).get? k <;> simp [text_apply_value]

/-- C3 witness: the DESCRIPTION scenario — writing `"NEW1\nNEW2\nNEW3"` into
a Content element with 2 LineRuns keeps 2 children holding `"NEW1"` and
`"NEW2"` (the third line dropped) and clears the leading text. -/
theorem c3_write_text_distributes_witness :
    localname exC3.tag = "text" ∧ (children_tspans exC3).isEmpty = false ∧
    (set_text exC3 "NEW1\nNEW2\nNEW3").text = none ∧
    (set_text exC3 "NEW1\nNEW2\nNEW3").children.length = 2 ∧
    ((children_tspans (set_text exC3 "NEW1\nNEW2\nNEW3")).get? 0).map Elem.text
      = some (some "NEW1") ∧
    ((children_tspans (set_text exC3 "NEW1\nNEW2\nNEW3")).get? 1).map Elem.text
      = some (some "NEW2") := by
  have h := c3_write_text_distributes exC3 "NEW1\nNEW2\nNEW3" (by decide) (by decide)
  refine ⟨by decide, by decide, h.1, ?_, ?_, ?_⟩
  · rw [h.2.1]; decide
  · rw [h.2.2.2 0]; decide
  · rw [h.2.2.2 1]; decide

/-- C9: after `_set_text` on a Content element the element either has its
text cleared (LineRun path) or has no LineRun children at all (direct path),
and `split_into_tspans` always clears the leading text, so neither operation
leaves a non-empty leading text payload next to a text-bearing LineRun. -/
theorem c9_no_dual_text (e : Elem) (v raw : String) (bx : Option String) (lh : Frac)
    (htag : localname e.tag = "text") :
    no_dual_text (set_text e v) ∧ (split_into_tspans e raw bx lh).text = none ∧
    no_dual_text (split_into_tspans e raw bx lh) := by
  refine ⟨?_, rfl, ?_⟩
  · rw [set_text, if_neg (by rw [htag]; decide), set_text_target,
      if_neg (by rw [htag]; decide), if_pos htag]
    by_cases hts : (children_tspans e).isEmpty
    · rw [if_pos hts]
      intro s _ _ c hc htsp s' _
      exfalso
      have hmem : c ∈ e.children := by simpa using hc
      have hnil : e.children.filter tspanPred = [] := by
        rw [List.isEmpty_eq_true] at hts
        exact hts
      exact (List.filter_eq_nil_iff.mp hnil c hmem) htsp
    · rw [if_neg hts]
      intro s hs
      simp at hs
  · intro s hs
    simp [split_into_tspans] at hs

/-- C9 witness at the DESCRIPTION scenario element. -/
theorem c9_no_dual_text_witness :
    localname exC3.tag = "text" ∧ no_dual_text (set_text exC3 "hi") ∧
    (split_into_tspans exC3 "a\\nb" none (12, 1)).text = none ∧
    no_dual_text (split_into_tspans exC3 "a\\nb" none (12, 1)) := by
  have h := c9_no_dual_text exC3 "hi" "a\\nb" none (12, 1) (by decide)
  exact ⟨by decide, h.1, h.2.1, h.2.2⟩

/-!
Line Splitter (claims about `split_into_tspans` on the marker split).
-/

theorem splitMarkerAux_ne_nil : ∀ s, splitMarkerAux s ≠ []
  | [] => by simp [splitMarkerAux]
  | [c] => by simp [splitMarkerAux]
  | c :: d :: r => by
    rw [splitMarkerAux]
    by_cases h : c = '\\' && d = 'n'
    · simp [h]
    · rw [if_neg h]
      cases hx : splitMarkerAux (d :: r) <;> simp

theorem splitMarkerAux_length : ∀ s, (splitMarkerAux s).length = marker_occurrences s + 1
  | [] => rfl
  | [c] => by
    rw [splitMarkerAux, marker_occurrences, marker_occurrences]
    simp [markerChars, pfxB]
  | c :: d :: r => by
    by_cases hc : c = '\\'
    · by_cases hd : d = 'n'
      · subst hc; subst hd
        rw [splitMarkerAux, if_pos (by decide), List.length_cons, splitMarkerAux_length r,
          marker_occurrences, marker_occurrences]
        simp [markerChars, pfxB]
        omega
      · subst hc
        rw [splitMarkerAux, if_neg (by simp [hd])]
        obtain ⟨p, ps, hsp⟩ : ∃ p ps, splitMarkerAux (d :: r) = p :: ps := by
          cases hx : splitMarkerAux (d :: r) with
          | nil => exact absurd hx (splitMarkerAux_ne_nil (d :: r))
          | cons p ps => exact ⟨p, ps, rfl⟩
        have hlen := splitMarkerAux_length (d :: r)
        rw [hsp] at hlen
        rw [hsp, marker_occurrences]
        have hpfx : pfxB markerChars ('\\' :: d :: r) = false := by
          simp [markerChars, pfxB, Ne.symm hd]
        rw [hpfx]
        simp at hlen ⊢
        omega
    · rw [splitMarkerAux, if_neg (by simp [hc])]
      obtain ⟨p, ps, hsp⟩ : ∃ p ps, splitMarkerAux (d :: r) = p :: ps := by
        cases hx : splitMarkerAux (d :: r) with
        | nil => exact absurd hx (splitMarkerAux_ne_nil (d :: r))
        | cons p ps => exact ⟨p, ps, rfl⟩
      have hlen := splitMarkerAux_length (d :: r)
      rw [hsp] at hlen
      rw [hsp, marker_occurrences]
      have hpfx : pfxB markerChars (c :: d :: r) = false := by
        simp [markerChars, pfxB, Ne.symm hc]
      rw [hpfx]
      simp at hlen ⊢
      omega

theorem buildTspans_length (bx : Option String) (d : String) :
    ∀ (i : Nat) (ls : List String), (buildTspans bx d i ls).length = ls.length
  | _, [] => rfl
  | i, l :: ls => by
    rw [buildTspans, List.length_cons, List.length_cons, buildTspans_length bx d (i + 1) ls]

theorem buildTspans_map_text (bx : Option String) (d : String) :
    ∀ (i : Nat) (ls : List String), (buildTspans bx d i ls).map Elem.text = ls.map some
  | _, [] => rfl
  | i, l :: ls => by
    rw [buildTspans, List.map_cons, List.map_cons, buildTspans_map_text bx d (i + 1) ls]
    rfl

theorem tspanPred_mkLineTspan (bx : Option String) (d : String) (i : Nat) (l : String) :
    tspanPred (mkLineTspan bx d i l) = true := rfl

theorem buildTspans_filter (bx : Option String) (d : String) :
    ∀ (i : Nat) (ls : List String),
      (buildTspans bx d i ls).filter tspanPred = buildTspans bx d i ls
  | _, [] => rfl
  | i, l :: ls => by
    rw [buildTspans, List.filter_cons_of_pos (tspanPred_mkLineTspan bx d i l),
      buildTspans_filter bx d (i + 1) ls]

/-- C4: splitting a raw text containing exactly k occurrences of the literal
two-character escape marker, on a Content element with no LineRun children,
creates exactly k+1 LineRuns, in order, the i-th holding the i-th substring
of the split (empty substrings included). -/
theorem c4_split_line_count (e : Elem) (raw : String) (bx : Option String) (lh : Frac) (k : Nat)
    (hts : children_tspans e = []) (hocc : marker_occurrences raw.data = k) :
    (children_tspans (split_into_tspans e raw bx lh)).length = k + 1 ∧
    (children_tspans (split_into_tspans e raw bx lh)).map Elem.text
      = (split_marker raw).map some := by
  have hts' : e.children.filter tspanPred = [] := hts
  have hsplit : children_tspans (split_into_tspans e raw bx lh)
      = buildTspans bx (py_float_repr lh ++ "px") 0 (split_marker raw) := by
    show (e.children ++ buildTspans bx (py_float_repr lh ++ "px") 0 (split_marker raw)).filter
        tspanPred = _
    rw [List.filter_append, buildTspans_filter, hts', List.nil_append]
  refine ⟨?_, ?_⟩
  · rw [hsplit, buildTspans_length, split_marker, List.length_map, splitMarkerAux_length, hocc]
  · rw [hsplit, buildTspans_map_text]

/-- C4 witness: `"a\n\nc"` (two literal markers, adjacent) on a childless
Content element yields three LineRuns `"a"`, `""`, `"c"`. -/
theorem c4_split_line_count_witness :
    children_tspans exC4 = [] ∧ marker_occurrences ("a\\n\\nc".data) = 2 ∧
    (children_tspans (split_into_tspans exC4 "a\\n\\nc" (some "7") (12, 1))).length = 3 ∧
    (children_tspans (split_into_tspans exC4 "a\\n\\nc" (some "7") (12, 1))).map Elem.text
      = [some "a", some "", some "c"] := by
  have h := c4_split_line_count exC4 "a\\n\\nc" (some "7") (12, 1) 2 rfl (by decide)
  refine ⟨rfl, by decide, h.1, ?_⟩
  rw [h.2]
  decide

/-!
Error handling of the field-update invocation (`set_text_by_id` and the
field-update phase of `main`).
-/

mutual

theorem findTTPathList_isSome : ∀ (i : Nat) (cs : List Elem),
    (findTTPathList i cs).isSome = (findTTList cs).isSome
  | _, [] => rfl
  | i, c :: rest => by
    rw [findTTPathList, findTTList]
    have hn := findTTPathNode_isSome c
    cases hp : findTTPathNode c with
    | some p =>
      rw [hp] at hn
      cases hq : findTTNode c with
      | some r => simp
      | none => rw [hq] at hn; simp at hn
    | none =>
      rw [hp] at hn
      cases hq : findTTNode c with
      | some r => rw [hq] at hn; simp at hn
      | none => rw [hq] at hn; simp [findTTPathList_isSome (i + 1) rest]

theorem findTTPathNode_isSome : ∀ c : Elem, (findTTPathNode c).isSome = (findTTNode c).isSome
  | Elem.mk t a x tl cs => by
    rw [findTTPathNode, findTTNode]
    by_cases h : is_text_or_tspan t
    · rw [if_pos h, if_pos h]; rfl
    · rw [if_neg h, if_neg h]
      exact findTTPathList_isSome 0 cs

end

/-- An identifier bound to a Group with no text-bearing descendant produces
no write at all: `_set_text` returns before touching the tree. -/
theorem set_text_group_empty (e : Elem) (v : String)
    (htag : localname e.tag = "g") (hfind : find_text_or_tspan_descendant e = none) :
    set_text e v = e := by
  rw [set_text, if_pos htag]
  have h2 := findTTPathList_isSome 0 e.children
  rw [show findTTList e.children = none from hfind] at h2
  have h3 : find_tt_path e = none := by
    rw [find_tt_path]
    cases hx : findTTPathList 0 e.children with
    | some p => rw [hx] at h2; simp at h2
    | none => rfl
  rw [h3]

/-- C8 amended: an unresolved identifier and an identifier bound to an empty
Group are both non-fatal and produce no write, and the requested fields are
processed independently; but the single warning of `main` is keyed to the
found-flags alone — it is emitted exactly when no requested identifier was
found at all, so an unresolved TITLE next to a found DESCRIPTION is silent,
and an empty-Group field counts as found (hence updated), never warned. -/
theorem c8_nonfatal_amended (r : Elem) (t d : Option String) :
    ((main_update r t d).2
        = ((t.isSome && (find_by_id r "TITLE").isSome)
            || (d.isSome && (find_by_id r "DESCRIPTION").isSome))) ∧
    (find_by_id r "TITLE" = none → find_by_id r "DESCRIPTION" = none →
      main_update r t d = (r, false)) ∧
    (∀ (e : Elem) (v : String), localname e.tag = "g" →
      find_text_or_tspan_descendant e = none → set_text e v = e) := by
  refine ⟨?_, ?_, fun e v h1 h2 => set_text_group_empty e v h1 h2⟩
  · cases t with
    | none =>
      cases d with
      | none => simp [main_update]
      | some w =>
        cases hD : find_by_id r "DESCRIPTION" <;> simp [main_update, set_text_by_id, hD]
    | some v =>
      cases hT : find_by_id r "TITLE" with
      | none =>
        cases d with
        | none => simp [main_update, set_text_by_id, hT]
        | some w =>
          cases hD : find_by_id r "DESCRIPTION" <;>
            simp [main_update, set_text_by_id, hT, hD]
      | some p =>
        cases d with
        | none => simp [main_update, set_text_by_id, hT]
        | some w => simp [main_update, set_text_by_id, hT]
  · intro hT hD
    cases t with
    | none =>
      cases d with
      | none => simp [main_update]
      | some w => simp [main_update, set_text_by_id, hD]
    | some v =>
      cases d with
      | none => simp [main_update, set_text_by_id, hT]
      | some w => simp [main_update, set_text_by_id, hT, hD]

/-- C8 amended witness: on a document with no TITLE and a DESCRIPTION bound
to an empty group, requesting both fields reports found (no warning), and a
write into an empty group is the identity. -/
theorem c8_nonfatal_amended_witness :
    (main_update exC8 (some "T") (some "D")).2 = true ∧
    main_update (Elem.mk "svg" [] none none []) (some "T") (some "D")
      = (Elem.mk "svg" [] none none [], false) ∧
    set_text (Elem.mk "g" [] none none []) "v" = Elem.mk "g" [] none none [] := by
  refine ⟨?_, ?_, ?_⟩
  · rw [(c8_nonfatal_amended exC8 (some "T") (some "D")).1]; decide
  · exact (c8_nonfatal_amended (Elem.mk "svg" [] none none []) (some "T") (some "D")).2.1 rfl rfl
  · exact (c8_nonfatal_amended (Elem.mk "svg" [] none none []) none none).2.2
      (Elem.mk "g" [] none none []) "v" rfl rfl

/-- C8 counterexample: with no TITLE element and DESCRIPTION bound to a Group
with no text-bearing descendant, the update reports `updated_any = true` (the
empty group counts as an update), so `main` prints no warning even though one
requested field was unresolved and the other was present-but-empty — the
claim that each such condition is recorded as a warning fails. -/
theorem c8_warning_counterexample :
    find_by_id exC8 "TITLE" = none ∧
    find_by_id exC8 "DESCRIPTION" = some [0] ∧
    (getAtPath exC8 [0]).map (fun g => localname g.tag) = some "g" ∧
    (getAtPath exC8 [0]).map (fun g => (find_text_or_tspan_descendant g).isSome) = some false ∧
    (main_update exC8 (some "T") (some "D")).2 = true :=
  ⟨by decide, by decide, by decide, by decide, by decide⟩

/-!
Frame effect of a Group write (`_clear_all_text_descendants` through
`_set_text`): path lemmas.
-/

theorem getAtPath_cons_eq (t : String) (a : List (String × String)) (x tl : Option String)
    (cs : List Elem) (j : Nat) (r : List Nat) :
    getAtPath (Elem.mk t a x tl cs) (j :: r)
      = cs[j]?.bind (fun c => getAtPath c r) := by
  rw [getAtPath]
  simp only [Elem.children_mk, List.get?_eq_getElem?]
  cases h : cs[j]? <;> rfl

theorem modifyChild_get?_self : ∀ (cs : List Elem) (i : Nat) (f : Elem → Elem),
    (modifyChild cs i f)[i]? = cs[i]?.map f
  | [], _, _ => by simp [modifyChild]
  | c :: rest, 0, f => by simp [modifyChild]
  | c :: rest, i + 1, f => by simpa [modifyChild] using modifyChild_get?_self rest i f

theorem modifyChild_get?_ne : ∀ (cs : List Elem) (i j : Nat) (f : Elem → Elem), j ≠ i →
    (modifyChild cs i f)[j]? = cs[j]?
  | [], _, _, _, _ => by simp [modifyChild]
  | c :: rest, 0, 0, f, h => absurd rfl h
  | c :: rest, 0, j + 1, f, h => by simp [modifyChild]
  | c :: rest, i + 1, 0, f, h => by simp [modifyChild]
  | c :: rest, i + 1, j + 1, f, h => by
    simpa [modifyChild] using modifyChild_get?_ne rest i j f (fun hh => h (by rw [hh]))

theorem getAtPath_append : ∀ (p : List Nat) (e : Elem) (s : List Nat),
    getAtPath e (p ++ s) = (getAtPath e p).bind (fun n => getAtPath n s)
  | [], e, s => by simp [getAtPath]
  | i :: p, e, s => by
    cases e with
    | mk t a x tl cs =>
      rw [List.cons_append, getAtPath_cons_eq, getAtPath_cons_eq]
      cases h : cs[i]? with
      | none => simp
      | some c => simp [getAtPath_append p c s]

theorem modify_not_prefix_text_tail : ∀ (q p : List Nat) (e : Elem) (f : Elem → Elem),
    (¬ ∃ s, q = p ++ s) →
    ((getAtPath (modifyAtPath e p f) q).map Elem.text = (getAtPath e q).map Elem.text ∧
      (getAtPath (modifyAtPath e p f) q).map Elem.tail = (getAtPath e q).map Elem.tail)
  | [], p, e, f, h => by
    cases p with
    | nil => exact absurd ⟨[], rfl⟩ h
    | cons i p' => exact ⟨by simp [modifyAtPath, getAtPath], by simp [modifyAtPath, getAtPath]⟩
  | j :: q', p, e, f, h => by
    cases p with
    | nil => exact absurd ⟨j :: q', rfl⟩ h
    | cons i p' =>
      cases e with
      | mk t a x tl cs =>
        have hmod : modifyAtPath (Elem.mk t a x tl cs) (i :: p') f
            = Elem.mk t a x tl (modifyChild cs i (fun c => modifyAtPath c p' f)) := rfl
        by_cases hij : j = i
        · subst hij
          have h' : ¬ ∃ s, q' = p' ++ s := fun hs => by
            obtain ⟨s, hs⟩ := hs
            exact h ⟨s, by rw [hs]; rfl⟩
          rw [hmod, getAtPath_cons_eq, getAtPath_cons_eq, modifyChild_get?_self]
          cases hc : cs[j]? with
          | none => constructor <;> rfl
          | some c =>
            have IH := modify_not_prefix_text_tail q' p' c f h'
            constructor <;> simp [IH.1, IH.2]
        · rw [hmod, getAtPath_cons_eq, getAtPath_cons_eq, modifyChild_get?_ne cs i j _ hij]
          constructor <;> rfl

theorem modify_append_get : ∀ (p : List Nat) (e tgt : Elem) (f : Elem → Elem) (s : List Nat),
    getAtPath e p = some tgt →
    getAtPath (modifyAtPath e p f) (p ++ s) = getAtPath (f tgt) s
  | [], e, tgt, f, s, h => by
    rw [show tgt = e from (Option.some.inj h).symm]
    rfl
  | i :: p', e, tgt, f, s, h => by
    cases e with
    | mk t a x tl cs =>
      rw [getAtPath_cons_eq] at h
      cases hc : cs[i]? with
      | none => rw [hc] at h; simp at h
      | some c =>
        rw [hc] at h
        simp only [Option.some_bind] at h
        rw [List.cons_append]
        show getAtPath (Elem.mk t a x tl
          (modifyChild cs i (fun c0 => modifyAtPath c0 p' f))) (i :: (p' ++ s)) = _
        rw [getAtPath_cons_eq, modifyChild_get?_self, hc]
        simpa using modify_append_get p' c tgt f s h

theorem clearDescChildren_get? : ∀ (cs : List Elem) (i j : Nat) (pa exc : List Nat) (pc : Bool),
    (clearDescChildren cs i pa exc pc)[j]?
      = cs[j]?.map (fun cj => clearDesc cj (pa ++ [i + j]) exc pc)
  | [], _, _, _, _, _ => by simp [clearDescChildren]
  | c :: rest, i, 0, pa, exc, pc => by simp [clearDescChildren]
  | c :: rest, i, j + 1, pa, exc, pc => by
    have IH := clearDescChildren_get? rest (i + 1) j pa exc pc
    have harith : i + 1 + j = i + (j + 1) := by omega
    rw [harith] at IH
    simpa [clearDescChildren] using IH

theorem clearDesc_getAtPath : ∀ (q : List Nat) (c : Elem) (pa exc : List Nat) (pc : Bool),
    ∃ b : Bool, getAtPath (clearDesc c pa exc pc) q
      = (getAtPath c q).map (fun n => clearDesc n (pa ++ q) exc b)
  | [], c, pa, exc, pc => ⟨pc, by simp [getAtPath]⟩
  | j :: q', c, pa, exc, pc => by
    cases c with
    | mk t a x tl cs =>
      rw [clearDesc]
      rw [getAtPath_cons_eq, getAtPath_cons_eq, clearDescChildren_get?]
      cases hc : cs[j]? with
      | none => exact ⟨pc, rfl⟩
      | some cj =>
        obtain ⟨b, hb⟩ := clearDesc_getAtPath q' cj (pa ++ [0 + j]) exc
          (is_text_or_tspan t && decide (pa ≠ exc))
        refine ⟨b, ?_⟩
        have hlist : pa ++ [0 + j] ++ q' = pa ++ (j :: q') := by simp
        rw [hlist] at hb
        simp at hb ⊢
        exact hb

theorem clearDesc_clears (n : Elem) (path exc : List Nat) (b : Bool)
    (htt : is_text_or_tspan n.tag = true) (hne : path ≠ exc) :
    (clearDesc n path exc b).text = some "" ∧ (clearDesc n path exc b).tail = some "" := by
  cases n with
  | mk t a x tl cs =>
    rw [clearDesc]
    simp only [Elem.tag_mk] at htt
    simp [htt, hne]

theorem clearDesc_tag (n : Elem) (path exc : List Nat) (b : Bool) :
    (clearDesc n path exc b).tag = n.tag := by
  cases n with
  | mk t a x tl cs => rfl

/-- Node form of `clear_all_text_descendants` along a non-empty path. -/
theorem clear_all_getAtPath (e : Elem) (exc : List Nat) (j : Nat) (q' : List Nat) :
    ∃ b : Bool, getAtPath (clear_all_text_descendants e exc) (j :: q')
      = (getAtPath e (j :: q')).map (fun n => clearDesc n (j :: q') exc b) := by
  cases e with
  | mk t a x tl cs =>
    rw [clear_all_text_descendants]
    simp only [Elem.tag_mk, Elem.attrs_mk, Elem.text_mk, Elem.tail_mk, Elem.children_mk]
    rw [getAtPath_cons_eq, getAtPath_cons_eq, clearDescChildren_get?]
    cases hc : cs[j]? with
    | none => exact ⟨false, rfl⟩
    | some cj =>
      obtain ⟨b, hb⟩ := clearDesc_getAtPath q' cj ([] ++ [0 + j]) exc false
      refine ⟨b, ?_⟩
      have hlist : ([] : List Nat) ++ [0 + j] ++ q' = j :: q' := by simp
      rw [hlist] at hb
      simp at hb ⊢
      exact hb

mutual

theorem findTTPathNode_sound : ∀ (c : Elem) (p : List Nat),
    findTTPathNode c = some p → ∃ tgt, getAtPath c p = some tgt
  | Elem.mk t a x tl cs, p, h => by
    rw [findTTPathNode] at h
    by_cases htt : is_text_or_tspan t
    · rw [if_pos htt] at h
      rw [← Option.some.inj h]
      exact ⟨_, rfl⟩
    · rw [if_neg htt] at h
      obtain ⟨j, p', c', tgt, rfl, hget, hle, htgt⟩ := findTTPathList_sound 0 cs p h
      refine ⟨tgt, ?_⟩
      rw [getAtPath_cons_eq]
      have : cs[j]? = some c' := by simpa using hget
      rw [this]
      simpa using htgt

theorem findTTPathList_sound : ∀ (i : Nat) (cs : List Elem) (p : List Nat),
    findTTPathList i cs = some p →
    ∃ j p' c tgt, p = j :: p' ∧ cs[j - i]? = some c ∧ i ≤ j ∧ getAtPath c p' = some tgt
  | _, [], p, h => by rw [findTTPathList] at h; cases h
  | i, c :: rest, p, h => by
    rw [findTTPathList] at h
    cases hn : findTTPathNode c with
    | some p0 =>
      rw [hn] at h
      obtain ⟨tgt, htgt⟩ := findTTPathNode_sound c p0 hn
      exact ⟨i, p0, c, tgt, (Option.some.inj h).symm, by simp, Nat.le_refl i, htgt⟩
    | none =>
      rw [hn] at h
      obtain ⟨j, p', c', tgt, rfl, hget, hle, htgt⟩ := findTTPathList_sound (i + 1) rest p h
      refine ⟨j, p', c', tgt, rfl, ?_, Nat.le_of_succ_le hle, htgt⟩
      have harith : j - i = (j - (i + 1)) + 1 := by omega
      rw [harith]
      simpa using hget

end

/-- The path returned by the locator search is a valid, non-empty path. -/
theorem find_tt_path_sound (e : Elem) (p : List Nat) (h : find_tt_path e = some p) :
    ∃ j p₀ tgt, p = j :: p₀ ∧ getAtPath e p = some tgt := by
  rw [find_tt_path] at h
  obtain ⟨j, p', c, tgt, rfl, hget, _, htgt⟩ := findTTPathList_sound 0 e.children p h
  refine ⟨j, p', tgt, rfl, ?_⟩
  cases e with
  | mk t a x tl cs =>
    rw [getAtPath_cons_eq]
    have : cs[j]? = some c := by simpa using hget
    rw [this]
    simpa using htgt

theorem apply_value_eq (t : String) (a : List (String × String)) (x tl : Option String)
    (cs : List Elem) (v : String) :
    apply_value_to_node (Elem.mk t a x tl cs) v
      = Elem.mk t a (some v) (some "")
          (cs.map (fun c => Elem.mk c.tag c.attrs (some "") (some "") c.children)) := rfl

theorem distributeLines_get?_weak (lines : List String) :
    ∀ (cs : List Elem) (i j : Nat),
      (distributeLines lines cs i)[j]? = cs[j]?
        ∨ ∃ c m, cs[j]? = some c ∧ tspanPred c = true
            ∧ (distributeLines lines cs i)[j]? = some (apply_value_to_node c m)
  | [], _, _ => Or.inl rfl
  | c :: rest, i, 0 => by
    rw [distributeLines]
    by_cases h : tspanPred c
    · exact Or.inr ⟨c, lines.getD i "", by simp, h, by simp [h]⟩
    · rw [if_neg h]
      exact Or.inl (by simp)
  | c :: rest, i, j + 1 => by
    rw [distributeLines]
    by_cases h : tspanPred c
    · rcases distributeLines_get?_weak lines rest (i + 1) j with hs | ⟨c0, m, hc0, ht0, hd0⟩
      · rw [if_pos h]
        exact Or.inl (by simpa using hs)
      · rw [if_pos h]
        exact Or.inr ⟨c0, m, by simpa using hc0, ht0, by simpa using hd0⟩
    · rcases distributeLines_get?_weak lines rest i j with hs | ⟨c0, m, hc0, ht0, hd0⟩
      · rw [if_neg h]
        exact Or.inl (by simpa using hs)
      · rw [if_neg h]
        exact Or.inr ⟨c0, m, by simpa using hc0, ht0, by simpa using hd0⟩

/-- Descending a non-empty path into the written target: every node reached,
other than the target's own direct tspan children (which receive line
values), keeps empty text and tail if it had them after the clearing pass. -/
theorem set_text_target_preserves_cleared (tgt : Elem) (v : String) (j : Nat) (r' : List Nat)
    (n : Elem) (hn : getAtPath tgt (j :: r') = some n)
    (htext : n.text = some "") (htail : n.tail = some "")
    (hexc : ¬ (r' = [] ∧ tspanPred n = true)) :
    ∃ n', getAtPath (set_text_target tgt v) (j :: r') = some n'
      ∧ n'.text = some "" ∧ n'.tail = some "" := by
  rw [set_text_target]
  by_cases h1 : localname tgt.tag = "tspan"
  · rw [if_pos h1]
    cases tgt with
    | mk t a x tl cs =>
      rw [getAtPath_cons_eq] at hn
      rw [apply_value_eq, getAtPath_cons_eq, List.getElem?_map]
      cases hc : cs[j]? with
      | none => rw [hc] at hn; simp at hn
      | some cj =>
        rw [hc] at hn
        simp only [Option.some_bind] at hn
        simp only [Option.map_some', Option.some_bind]
        cases r' with
        | nil => exact ⟨_, rfl, rfl, rfl⟩
        | cons k r'' =>
          refine ⟨n, ?_, htext, htail⟩
          cases cj with
          | mk tc ac xc tlc csc =>
            rw [getAtPath_cons_eq]
            rw [getAtPath_cons_eq] at hn
            exact hn
  · rw [if_neg h1]
    by_cases h2 : localname tgt.tag = "text"
    · rw [if_pos h2]
      by_cases h3 : (children_tspans tgt).isEmpty
      · rw [if_pos h3]
        refine ⟨n, ?_, htext, htail⟩
        cases tgt with
        | mk t a x tl cs =>
          rw [getAtPath_cons_eq] at hn ⊢
          exact hn
      · rw [if_neg h3]
        cases tgt with
        | mk t a x tl cs =>
          rw [getAtPath_cons_eq] at hn
          rw [getAtPath_cons_eq]
          simp only [Elem.children_mk]
          rcases distributeLines_get?_weak (split_on_linefeed v) cs 0 j with
            hsame | ⟨c, m, hcs, htsp, hdist⟩
          · rw [hsame]
            cases hcj : cs[j]? with
            | none => rw [hcj] at hn; simp at hn
            | some cj =>
              rw [hcj] at hn
              exact ⟨n, by simpa using hn, htext, htail⟩
          · rw [hdist]
            rw [hcs] at hn
            simp only [Option.some_bind] at hn
            cases r' with
            | nil =>
              exact absurd ⟨rfl, by rw [show n = c from (Option.some.inj hn).symm]; exact htsp⟩ hexc
            | cons k r'' =>
              cases c with
              | mk tc ac xc tlc csc =>
                rw [apply_value_eq]
                simp only [Option.some_bind]
                rw [getAtPath_cons_eq, List.getElem?_map]
                rw [getAtPath_cons_eq] at hn
                cases hck : csc[k]? with
                | none => rw [hck] at hn; simp at hn
                | some ck =>
                  rw [hck] at hn
                  simp only [Option.some_bind] at hn
                  simp only [Option.map_some', Option.some_bind]
                  cases r'' with
                  | nil => exact ⟨_, rfl, rfl, rfl⟩
                  | cons k2 r3 =>
                    refine ⟨n, ?_, htext, htail⟩
                    cases ck with
                    | mk t2 a2 x2 tl2 cs2 =>
                      rw [getAtPath_cons_eq]
                      rw [getAtPath_cons_eq] at hn
                      exact hn
    · rw [if_neg h2]
      refine ⟨n, ?_, htext, htail⟩
      cases tgt with
      | mk t a x tl cs =>
        rw [getAtPath_cons_eq] at hn ⊢
        exact hn

/-- C10 amended: writing into a Group clears the leading text and trailing
tail (to the empty string) of every `text`/`tspan` descendant of the Group
other than the chosen target itself and the target's direct tspan children —
the latter instead receive the distributed lines of the written value (blank
for surplus runs); in particular sibling text-bearing elements inside the
Group lose their previous text even though they are not the write target. -/
theorem c10_group_write_clears (e : Elem) (v : String) (p q : List Nat) (nq : Elem)
    (htag : localname e.tag = "g")
    (hp : find_tt_path e = some p)
    (hq : getAtPath e q = some nq)
    (htt : is_text_or_tspan nq.tag = true)
    (hne : q ≠ p)
    (hnotchild : ¬ ∃ j, q = p ++ [j] ∧ tspanPred nq = true) :
    ∃ n', getAtPath (set_text e v) q = some n' ∧ n'.text = some "" ∧ n'.tail = some "" := by
  have hset : set_text e v
      = modifyAtPath (clear_all_text_descendants e p) p (fun tg => set_text_target tg v) := by
    rw [set_text, if_pos htag, hp]
  obtain ⟨jq, q₀, rfl⟩ : ∃ jq q₀, q = jq :: q₀ := by
    cases q with
    | nil =>
      exfalso
      have heq : e = nq := Option.some.inj hq
      rw [← heq, is_text_or_tspan, htag] at htt
      simp at htt
    | cons jq q₀ => exact ⟨jq, q₀, rfl⟩
  obtain ⟨jp, p₀, tgt, hpShape, hptgt⟩ := find_tt_path_sound e p hp
  subst hpShape
  obtain ⟨bP, hbP⟩ := clear_all_getAtPath e (jp :: p₀) jp p₀
  rw [hptgt] at hbP
  simp only [Option.map_some'] at hbP
  obtain ⟨bQ, hbQ⟩ := clear_all_getAtPath e (jp :: p₀) jq q₀
  rw [hq] at hbQ
  simp only [Option.map_some'] at hbQ
  have hcleared := clearDesc_clears nq (jq :: q₀) (jp :: p₀) bQ htt hne
  by_cases hpre : ∃ s, jq :: q₀ = (jp :: p₀) ++ s
  · obtain ⟨s, hs⟩ := hpre
    cases s with
    | nil => exact absurd (by simpa using hs) hne
    | cons js rs =>
      rw [hset, hs, modify_append_get (jp :: p₀) _ _ _ (js :: rs) hbP]
      have happ := getAtPath_append (jp :: p₀)
        (clear_all_text_descendants e (jp :: p₀)) (js :: rs)
      rw [← hs, hbQ, hbP] at happ
      simp only [Option.some_bind] at happ
      have hnval : getAtPath (clearDesc tgt (jp :: p₀) (jp :: p₀) bP) (js :: rs)
          = some (clearDesc nq (jq :: q₀) (jp :: p₀) bQ) := happ.symm
      have hexc : ¬ (rs = [] ∧ tspanPred (clearDesc nq (jq :: q₀) (jp :: p₀) bQ) = true) := by
        rintro ⟨hrs, hts⟩
        apply hnotchild
        refine ⟨js, by rw [hs, hrs], ?_⟩
        rw [tspanPred] at hts ⊢
        rw [clearDesc_tag] at hts
        exact hts
      exact set_text_target_preserves_cleared _ v js rs _ hnval hcleared.1 hcleared.2 hexc
  · have hmaps := modify_not_prefix_text_tail (jq :: q₀) (jp :: p₀)
      (clear_all_text_descendants e (jp :: p₀)) (fun tg => set_text_target tg v) hpre
    rw [hset]
    have h1 := hmaps.1
    have h2 := hmaps.2
    rw [hbQ] at h1 h2
    cases hx : getAtPath (modifyAtPath (clear_all_text_descendants e (jp :: p₀)) (jp :: p₀)
        (fun tg => set_text_target tg v)) (jq :: q₀) with
    | none => rw [hx] at h1; simp at h1
    | some n' =>
      rw [hx] at h1 h2
      simp only [Option.map_some'] at h1 h2
      refine ⟨n', rfl, ?_, ?_⟩
      · rw [Option.some.inj h1, hcleared.1]
      · rw [Option.some.inj h2, hcleared.2]

/-- C10 counterexample: in `exC10` the locator target is the `text` element
at path `[0]`; its tspan child at path `[0, 0]` is a `text`/`tspan`
descendant of the Group other than the target, yet after writing `"X"` it
holds the written value, not the empty string — the claim that every
non-target `text`/`tspan` descendant is cleared fails. -/
theorem c10_clear_counterexample :
    localname exC10.tag = "g" ∧
    find_tt_path exC10 = some [0] ∧
    (getAtPath exC10 [0, 0]).map (fun n => is_text_or_tspan n.tag) = some true ∧
    (getAtPath (set_text exC10 "X") [0, 0]).map Elem.text = some (some "X") ∧
    (some (some "X") : Option (Option String)) ≠ some (some "") :=
  ⟨by decide, by decide, by decide, by decide, by decide⟩

/-- C10 witness: the sibling `text` element at path `[1]` — a non-target
text-bearing descendant — has its text (previously `"SIDE"`) and tail
(previously `"tailS"`) cleared to the empty string by the write. -/
theorem c10_group_write_clears_witness :
    localname exC10.tag = "g" ∧ find_tt_path exC10 = some [0] ∧
    (getAtPath (set_text exC10 "X") [1]).map Elem.text = some (some "") ∧
    (getAtPath (set_text exC10 "X") [1]).map Elem.tail = some (some "") := by
  have h := c10_group_write_clears exC10 "X" [0] [1]
    (Elem.mk "text" [] (some "SIDE") (some "tailS") []) (by decide) (by decide) rfl (by decide)
    (by decide) (by rintro ⟨j, hj, _⟩; simp at hj)
  obtain ⟨n', hn', ht, htl⟩ := h
  refine ⟨by decide, by decide, ?_, ?_⟩
  · rw [hn']
    simp [ht]
  · rw [hn']
    simp [htl]

theorem stripLit_self : ∀ (l r : List Char), stripLit l (l ++ r) = some r
  | [], r => rfl
  | c :: l, r => by simp [stripLit, stripLit_self l r]

theorem stripLit_none_of_pfxB_false : ∀ (l s : List Char), pfxB l s = false → stripLit l s = none
  | [], s, h => by simp [pfxB] at h
  | _ :: _, [], _ => rfl
  | c :: l, b :: s, h => by
    rw [pfxB] at h
    rw [stripLit]
    by_cases hb : b = c
    · rw [if_pos hb]
      subst hb
      simp at h
      exact stripLit_none_of_pfxB_false l s h
    · rw [if_neg hb]

theorem stripLit_length : ∀ (l s r : List Char), stripLit l s = some r →
    r.length + l.length = s.length
  | [], s, r, h => by cases h; simp
  | c :: l, [], r, h => by cases h
  | c :: l, b :: s, r, h => by
    rw [stripLit] at h
    by_cases hb : b = c
    · rw [if_pos hb] at h
      have := stripLit_length l s r h
      simp
      omega
    · rw [if_neg hb] at h
      cases h

theorem tryWS_none (s : List Char) (h : pfxB litWS s = false) : tryWS s = none := by
  rw [tryWS, stripLit_none_of_pfxB_false litWS s h]

theorem dropWhile_length_le (p : Char → Bool) : ∀ s : List Char,
    (s.dropWhile p).length ≤ s.length
  | [] => Nat.le_refl 0
  | c :: r => by
    rw [List.dropWhile_cons]
    by_cases h : p c
    · rw [if_pos h]
      exact Nat.le_trans (dropWhile_length_le p r) (by simp)
    · rw [if_neg h]

theorem tryWSAfterColon_shrink (s3 rem : List Char) (h : tryWSAfterColon s3 = some rem) :
    rem.length ≤ s3.length := by
  rw [tryWSAfterColon] at h
  split at h
  · cases h
  · have hd3 : (s3.drop (s3.takeWhile (fun x => x ≠ ';')).length).length ≤ s3.length := by
      simp [List.length_drop]
    split at h
    · rename_i hd
      rw [← Option.some.inj h]
      simp
    · rename_i c5 s5 hd
      rw [hd] at hd3
      split at h
      · rw [← Option.some.inj h]
        simp at hd3
        omega
      · rw [← Option.some.inj h]
        exact hd3

theorem tryWSAfterLit_shrink (s1 rem : List Char) (h : tryWSAfterLit s1 = some rem) :
    rem.length < s1.length := by
  rw [tryWSAfterLit] at h
  split at h
  · cases h
  · rename_i c s3 h2
    have hlen3 : s3.length + 1 ≤ s1.length := by
      have hle := dropWhile_length_le isPyWs s1
      rw [h2] at hle
      simpa using hle
    split at h
    · have := tryWSAfterColon_shrink s3 rem h
      omega
    · cases h

theorem tryWS_shrink (s rem : List Char) (h : tryWS s = some rem) : rem.length < s.length := by
  rw [tryWS] at h
  split at h
  · cases h
  · rename_i s1 hs
    have hs1 : s1.length + litWS.length = s.length := stripLit_length litWS s s1 hs
    have hlit : litWS.length = 11 := rfl
    have := tryWSAfterLit_shrink s1 rem h
    omega

theorem wsSubFuel_step : ∀ (f : Nat) (s : List Char), s.length ≤ f →
    wsSubFuel (f + 1) s = wsSubFuel f s
  | f, [], _ => by cases f <;> rfl
  | 0, c :: r, h => by simp at h
  | f + 1, c :: r, h => by
    rw [wsSubFuel, wsSubFuel]
    cases ht : tryWS (c :: r) with
    | some rem =>
      have hrem : rem.length ≤ f := by
        have := tryWS_shrink (c :: r) rem ht
        simp at this h
        omega
      show wsSubFuel (f + 1) rem = wsSubFuel f rem
      exact wsSubFuel_step f rem hrem
    | none =>
      have hr : r.length ≤ f := by simp at h; omega
      show c :: wsSubFuel (f + 1) r = c :: wsSubFuel f r
      rw [wsSubFuel_step f r hr]

theorem wsSubFuel_eq_wsSub : ∀ (k : Nat) (s : List Char), wsSubFuel (s.length + k) s = wsSub s
  | 0, s => rfl
  | k + 1, s => by
    have : s.length + (k + 1) = (s.length + k) + 1 := rfl
    rw [this, wsSubFuel_step (s.length + k) s (by omega), wsSubFuel_eq_wsSub k s]

theorem wsSubFuel_ge (f : Nat) (s : List Char) (h : s.length ≤ f) : wsSubFuel f s = wsSub s := by
  obtain ⟨k, rfl⟩ := Nat.le.dest h
  exact wsSubFuel_eq_wsSub k s

theorem wsSub_cons_none (c : Char) (r : List Char) (h : tryWS (c :: r) = none) :
    wsSub (c :: r) = c :: wsSub r := by
  show wsSubFuel (c :: r).length (c :: r) = _
  rw [List.length_cons, wsSubFuel, h]
  rfl

theorem wsSub_cons_some (c : Char) (r rem : List Char) (h : tryWS (c :: r) = some rem) :
    wsSub (c :: r) = wsSub rem := by
  show wsSubFuel (c :: r).length (c :: r) = _
  rw [List.length_cons, wsSubFuel, h]
  show wsSubFuel r.length rem = wsSub rem
  exact wsSubFuel_ge r.length rem (by
    have := tryWS_shrink (c :: r) rem h
    simp at this
    omega)

theorem pfxB_append_left : ∀ (l a b : List Char), pfxB l (a ++ b) = true →
    l.length ≤ a.length → pfxB l a = true
  | [], _, _, _, _ => rfl
  | c :: l, [], b, h, hl => by simp at hl
  | c :: l, a0 :: a, b, h, hl => by
    rw [List.cons_append, pfxB] at h
    rw [pfxB]
    simp only [Bool.and_eq_true] at h ⊢
    exact ⟨h.1, pfxB_append_left l a b h.2 (by simpa using hl)⟩

theorem pfxB_swap : ∀ (l a b : List Char), pfxB l (a ++ b) = true →
    a.length ≤ l.length → pfxB a l = true
  | _, [], _, _, _ => rfl
  | [], a0 :: a, b, h, hl => by simp at hl
  | c :: l, a0 :: a, b, h, hl => by
    rw [List.cons_append, pfxB] at h
    rw [pfxB]
    simp only [Bool.and_eq_true, decide_eq_true_eq] at h ⊢
    exact ⟨h.1.symm, pfxB_swap l a b h.2 (by simpa using hl)⟩

theorem pfxB_mem : ∀ (a l : List Char) (c : Char), pfxB a l = true → c ∈ a → c ∈ l
  | [], _, c, _, hc => by simp at hc
  | a0 :: a, [], c, h, _ => by simp [pfxB] at h
  | a0 :: a, b :: l, c, h, hc => by
    rw [pfxB] at h
    simp only [Bool.and_eq_true, decide_eq_true_eq] at h
    rcases List.mem_cons.mp hc with hc0 | hcm
    · rw [hc0, h.1]
      exact List.mem_cons_self b l
    · exact List.mem_cons_of_mem b (pfxB_mem a l c h.2 hcm)

theorem occursIn_of_pfx_drop : ∀ (u : List Char) (i : Nat),
    pfxB litWS (u.drop i) = true → occursIn litWS u = true
  | [], i, h => by
    rw [List.drop_nil] at h
    exact absurd h (by decide)
  | c :: r, 0, h => by
    rw [List.drop_zero] at h
    rw [occursIn, h]
    rfl
  | c :: r, i + 1, h => by
    rw [List.drop_succ_cons] at h
    rw [occursIn, occursIn_of_pfx_drop r i h]
    simp

theorem drop_append_le : ∀ (u x : List Char) (i : Nat), i ≤ u.length →
    List.drop i (u ++ x) = List.drop i u ++ x
  | u, x, 0, _ => by simp
  | [], x, i + 1, h => by simp at h
  | c :: u, x, i + 1, h => by
    simp only [List.cons_append, List.drop_succ_cons]
    exact drop_append_le u x i (by simpa using h)

theorem safe_semiterm (u : List Char) (hocc : occursIn litWS u = false) (rest : List Char) :
    ∀ i, i < (u ++ [';']).length → pfxB litWS (List.drop i (u ++ [';']) ++ rest) = false := by
  intro i hi
  cases hx : pfxB litWS (List.drop i (u ++ [';']) ++ rest) with
  | false => rfl
  | true =>
    exfalso
    have hiu : i ≤ u.length := by
      simp at hi
      omega
    rw [drop_append_le u [';'] i hiu, List.append_assoc] at hx
    by_cases hlen : litWS.length ≤ (List.drop i u).length
    · have hp := pfxB_append_left litWS (List.drop i u) ([';'] ++ rest) hx hlen
      rw [occursIn_of_pfx_drop u i hp] at hocc
      cases hocc
    · have hlen2 : (List.drop i u ++ [';']).length ≤ litWS.length := by
        simp at hlen ⊢
        omega
      rw [← List.append_assoc] at hx
      have hsw := pfxB_swap litWS (List.drop i u ++ [';']) rest hx hlen2
      have hmem : (';' : Char) ∈ litWS := pfxB_mem _ _ _ hsw (by simp)
      exact absurd hmem (by decide)

theorem safe_noterm (u : List Char) (hocc : occursIn litWS u = false) :
    ∀ i, i < u.length → pfxB litWS (List.drop i u ++ []) = false := by
  intro i hi
  cases hx : pfxB litWS (List.drop i u ++ []) with
  | false => rfl
  | true =>
    exfalso
    rw [List.append_nil] at hx
    rw [occursIn_of_pfx_drop u i hx] at hocc
    cases hocc

theorem wsSub_skip : ∀ (seg rest : List Char),
    (∀ i, i < seg.length → pfxB litWS (List.drop i seg ++ rest) = false) →
    wsSub (seg ++ rest) = seg ++ wsSub rest
  | [], rest, _ => by simp
  | c :: seg, rest, h => by
    have h0 : pfxB litWS ((c :: seg) ++ rest) = false := by
      have := h 0 (by simp)
      simpa using this
    rw [List.cons_append, wsSub_cons_none c (seg ++ rest) (tryWS_none _ h0)]
    rw [wsSub_skip seg rest (fun i hi => by
      have := h (i + 1) (by simp; omega)
      simpa using this)]
    rfl

theorem takeWhile_until_semi : ∀ (v t : List Char), (∀ c ∈ v, ¬(c = ';')) →
    (v ++ ';' :: t).takeWhile (fun x => x ≠ ';') = v
  | [], t, _ => by simp
  | c :: v, t, h => by
    rw [List.cons_append,
      List.takeWhile_cons_of_pos (by simpa using h c (List.mem_cons_self c v)),
      takeWhile_until_semi v t (fun c0 hc0 => h c0 (List.mem_cons_of_mem c hc0))]

theorem takeWhile_all_plain : ∀ (v : List Char), (∀ c ∈ v, ¬(c = ';')) →
    v.takeWhile (fun x => x ≠ ';') = v
  | [], _ => rfl
  | c :: v, h => by
    rw [List.takeWhile_cons_of_pos (by simpa using h c (List.mem_cons_self c v)),
      takeWhile_all_plain v (fun c0 hc0 => h c0 (List.mem_cons_of_mem c hc0))]

theorem tryWS_strip (s s1 : List Char) (h : stripLit litWS s = some s1) :
    tryWS s = tryWSAfterLit s1 := by
  rw [tryWS, h]

theorem tryWSAfterLit_colon (x : List Char) :
    tryWSAfterLit (':' :: x) = tryWSAfterColon x := by
  rw [tryWSAfterLit, List.dropWhile_cons_of_neg (by decide)]
  rfl

theorem tryWS_wsdecl_mid (v t : List Char) (hv0 : v ≠ []) (hv : ∀ c ∈ v, ¬(c = ';')) :
    tryWS (litWS ++ ':' :: (v ++ ';' :: t)) = some t := by
  rw [tryWS_strip _ _ (stripLit_self litWS _), tryWSAfterLit_colon, tryWSAfterColon,
    takeWhile_until_semi v t hv, if_neg hv0, List.drop_left]
  rfl

theorem tryWS_wsdecl_last (v : List Char) (hv0 : v ≠ []) (hv : ∀ c ∈ v, ¬(c = ';')) :
    tryWS (litWS ++ ':' :: v) = some [] := by
  rw [tryWS_strip _ _ (stripLit_self litWS _), tryWSAfterLit_colon, tryWSAfterColon,
    takeWhile_all_plain v hv, if_neg hv0, List.drop_length]

theorem wsSub_eq_of_tryWS (s rem : List Char) (h : tryWS s = some rem) : wsSub s = wsSub rem := by
  cases s with
  | nil =>
    rw [show tryWS [] = none from by decide] at h
    cases h
  | cons c r => exact wsSub_cons_some c r rem h

theorem declChars_ws (d : String × String) (hws : d.1 = "white-space") :
    declChars d = litWS ++ ':' :: d.2.data := by
  rw [declChars, hws]
  rfl

theorem okDecl_parts (d : String × String) (h : okDecl d = true) :
    d.1.data ≠ [] ∧ d.2.data ≠ [] ∧ (∀ c ∈ d.1.data, plainChar c = true) ∧
      (∀ c ∈ d.2.data, plainChar c = true) ∧
      (d.1 = "white-space" ∨ occursIn litWS (declChars d) = false) := by
  rw [okDecl] at h
  simp only [Bool.and_eq_true, Bool.or_eq_true, beq_iff_eq, Bool.not_eq_true',
    List.all_eq_true, List.isEmpty_eq_false] at h
  exact ⟨h.1.1.1.1, h.1.1.1.2, h.1.1.2, h.1.2, h.2⟩

theorem plainChar_ne_semi (c : Char) (h : plainChar c = true) : ¬(c = ';') := by
  rw [plainChar] at h
  simp only [Bool.and_eq_true, Bool.not_eq_true'] at h
  exact of_decide_eq_false h.2

theorem wsSub_render : ∀ ds : List (String × String), ds.all okDecl = true →
    wsSub (interSemi (ds.map declChars)) = wsSubSpec ds
  | [], _ => rfl
  | d :: rest, h => by
    have hall : okDecl d = true ∧ rest.all okDecl = true := by
      simpa using h
    obtain ⟨hn0, hv0, hnp, hvp, hdisj⟩ := okDecl_parts d hall.1
    have hvsemi : ∀ c ∈ d.2.data, ¬(c = ';') := fun c hc => plainChar_ne_semi c (hvp c hc)
    rw [wsSubSpec]
    by_cases hws : d.1 = "white-space"
    · rw [if_pos hws]
      cases rest with
      | nil =>
        show wsSub (interSemi [declChars d]) = wsSubSpec []
        rw [show interSemi [declChars d] = declChars d from rfl, declChars_ws d hws,
          wsSub_eq_of_tryWS _ _ (tryWS_wsdecl_last d.2.data hv0 hvsemi)]
        rfl
      | cons d2 rest2 =>
        rw [List.map_cons, List.map_cons, interSemi, ← List.map_cons]
        rw [declChars_ws d hws]
        have hassoc : (litWS ++ ':' :: d.2.data) ++ ';' :: interSemi ((d2 :: rest2).map declChars)
            = litWS ++ ':' :: (d.2.data ++ ';' :: interSemi ((d2 :: rest2).map declChars)) := by
          simp
        rw [hassoc,
          wsSub_eq_of_tryWS _ _ (tryWS_wsdecl_mid d.2.data _ hv0 hvsemi),
          wsSub_render (d2 :: rest2) hall.2]
    · rw [if_neg hws]
      have hocc : occursIn litWS (declChars d) = false := by
        rcases hdisj with hd | hd
        · exact absurd hd hws
        · exact hd
      cases rest with
      | nil =>
        show wsSub (interSemi [declChars d]) = declChars d ++ _
        rw [show interSemi [declChars d] = declChars d from rfl]
        have hskip := wsSub_skip (declChars d) []
          (fun i hi => safe_noterm (declChars d) hocc i hi)
        rw [List.append_nil] at hskip
        rw [hskip]
        rfl
      | cons d2 rest2 =>
        rw [List.map_cons, List.map_cons, interSemi, ← List.map_cons]
        have hshape : declChars d ++ ';' :: interSemi ((d2 :: rest2).map declChars)
            = (declChars d ++ [';']) ++ interSemi ((d2 :: rest2).map declChars) := by
          simp
        rw [hshape,
          wsSub_skip (declChars d ++ [';']) _
            (fun i hi => safe_semiterm (declChars d) hocc _ i hi),
          wsSub_render (d2 :: rest2) hall.2]
        simp

theorem goodChar_not_semi (c : Char) (h : goodChar c = true) : ¬(c = ';') := by
  rw [goodChar] at h
  simp only [Bool.or_eq_true] at h
  rcases h with h | h
  · exact plainChar_ne_semi c h
  · intro hc
    rw [hc] at h
    exact absurd h (by decide)

theorem goodChar_not_ws (c : Char) (h : goodChar c = true) : isPyWs c = false := by
  rw [goodChar] at h
  simp only [Bool.or_eq_true] at h
  rcases h with h | h
  · rw [plainChar] at h
    simp only [Bool.and_eq_true, Bool.not_eq_true'] at h
    exact h.1
  · simp only [decide_eq_true_eq] at h
    rw [h]
    decide

theorem declChars_nonempty (d : String × String) (h : okDecl d = true) : declChars d ≠ [] := by
  obtain ⟨hn0, _, _, _, _⟩ := okDecl_parts d h
  rw [declChars]
  cases hx : d.1.data with
  | nil => exact absurd hx hn0
  | cons a b => simp [hx]

theorem declChars_good (d : String × String) (h : okDecl d = true) :
    ∀ c ∈ declChars d, goodChar c = true := by
  obtain ⟨_, _, hnp, hvp, _⟩ := okDecl_parts d h
  intro c hc
  rw [declChars] at hc
  rcases List.mem_append.mp hc with hc | hc
  · rw [goodChar, hnp c hc]
    rfl
  · rcases List.mem_cons.mp hc with hc | hc
    · rw [goodChar, hc]
      decide
    · rw [goodChar, hvp c hc]
      rfl

theorem collapse_go_block : ∀ (x : List Char), x ≠ [] → (∀ c ∈ x, ¬(c = ';')) →
    ∀ (rest : List Char) (prev : Bool),
      collapseSemisGo prev (x ++ rest) = x ++ collapseSemisGo false rest
  | [], hx, _ => absurd rfl hx
  | c :: x', _, hc => by
    intro rest prev
    rw [List.cons_append, collapseSemisGo,
      if_neg (by simpa using hc c (List.mem_cons_self c x'))]
    cases hx' : x' with
    | nil => simp
    | cons a b =>
      rw [← hx']
      rw [collapse_go_block x' (by rw [hx']; simp)
        (fun c0 hc0 => hc c0 (List.mem_cons_of_mem c hc0)) rest false]
      simp

theorem collapse_interSemi : ∀ (bs : List (List Char)),
    (∀ b ∈ bs, b ≠ [] ∧ ∀ c ∈ b, ¬(c = ';')) →
    ∀ prev : Bool, collapseSemisGo prev (interSemi bs) = interSemi bs
  | [], _, _ => rfl
  | [x], h, prev => by
    have hx := h x (List.mem_cons_self x [])
    rw [show interSemi [x] = x from rfl]
    have := collapse_go_block x hx.1 hx.2 [] prev
    simpa [collapseSemisGo] using this
  | x :: y :: r, h, prev => by
    have hx := h x (List.mem_cons_self x (y :: r))
    rw [interSemi, collapse_go_block x hx.1 hx.2 (';' :: interSemi (y :: r)) prev,
      collapseSemisGo, if_pos rfl]
    rw [collapse_interSemi (y :: r) (fun b hb => h b (List.mem_cons_of_mem x hb)) true]
    simp

theorem collapse_interSemi_semi : ∀ (bs : List (List Char)), bs ≠ [] →
    (∀ b ∈ bs, b ≠ [] ∧ ∀ c ∈ b, ¬(c = ';')) →
    ∀ prev : Bool, collapseSemisGo prev (interSemi bs ++ [';']) = interSemi bs ++ [';']
  | [], hb, _, _ => absurd rfl hb
  | [x], _, h, prev => by
    have hx := h x (List.mem_cons_self x [])
    rw [show interSemi [x] = x from rfl,
      collapse_go_block x hx.1 hx.2 [';'] prev]
    rfl
  | x :: y :: r, _, h, prev => by
    have hx := h x (List.mem_cons_self x (y :: r))
    rw [interSemi, List.append_assoc, List.cons_append,
      collapse_go_block x hx.1 hx.2 (';' :: (interSemi (y :: r) ++ [';'])) prev,
      collapseSemisGo, if_pos rfl]
    rw [collapse_interSemi_semi (y :: r) (by simp)
      (fun b hb => h b (List.mem_cons_of_mem x hb)) true]
    simp

theorem interSemi_head : ∀ (bs : List (List Char)), bs ≠ [] →
    (∀ b ∈ bs, b ≠ [] ∧ ∀ c ∈ b, goodChar c = true) →
    ∃ c t, interSemi bs = c :: t ∧ goodChar c = true
  | [], hb, _ => absurd rfl hb
  | [x], _, h => by
    have hx := h x (List.mem_cons_self x [])
    cases hc : x with
    | nil => exact absurd hc hx.1
    | cons a b =>
      rw [hc] at hx
      exact ⟨a, b, rfl, hx.2 a (List.mem_cons_self a b)⟩
  | x :: y :: r, _, h => by
    have hx := h x (List.mem_cons_self x (y :: r))
    cases hc : x with
    | nil => exact absurd hc hx.1
    | cons a b =>
      rw [hc] at hx
      exact ⟨a, b ++ ';' :: interSemi (y :: r), rfl,
        hx.2 a (List.mem_cons_self a b)⟩

theorem interSemi_last_rev : ∀ (bs : List (List Char)), bs ≠ [] →
    (∀ b ∈ bs, b ≠ [] ∧ ∀ c ∈ b, goodChar c = true) →
    ∃ c t, (interSemi bs).reverse = c :: t ∧ goodChar c = true
  | [], hb, _ => absurd rfl hb
  | [x], _, h => by
    have hx := h x (List.mem_cons_self x [])
    cases hc : x.reverse with
    | nil =>
      exfalso
      have : x = [] := by simpa using congrArg List.reverse hc
      exact hx.1 this
    | cons a b =>
      refine ⟨a, b, by rw [show interSemi [x] = x from rfl, hc], ?_⟩
      have ha : a ∈ x := by
        rw [← List.mem_reverse, hc]
        exact List.mem_cons_self a b
      exact hx.2 a ha
  | x :: y :: r, _, h => by
    obtain ⟨c, t, hrev, hgood⟩ :=
      interSemi_last_rev (y :: r) (by simp) (fun b hb => h b (List.mem_cons_of_mem x hb))
    refine ⟨c, t ++ [';'] ++ x.reverse, ?_, hgood⟩
    rw [interSemi, List.reverse_append, List.reverse_cons, hrev]
    simp

theorem goodChar_not_semiSp (c : Char) (h : goodChar c = true) :
    (decide (c = ';') || decide (c = ' ')) = false := by
  have h1 : ¬(c = ';') := goodChar_not_semi c h
  have h2 : ¬(c = ' ') := by
    rw [goodChar] at h
    simp only [Bool.or_eq_true] at h
    rcases h with h | h
    · intro hc
      rw [hc] at h
      exact absurd h (by decide)
    · simp only [decide_eq_true_eq] at h
      rw [h]
      decide
  simp [h1, h2]

theorem wsSubSpec_shape : ∀ ds : List (String × String),
    wsSubSpec ds = interSemi ((filterNonWS ds).map declChars) ∨
      (filterNonWS ds ≠ [] ∧
        wsSubSpec ds = interSemi ((filterNonWS ds).map declChars) ++ [';'])
  | [] => Or.inl rfl
  | d :: rest => by
    have IH := wsSubSpec_shape rest
    by_cases hws : d.1 = "white-space"
    · have hf : filterNonWS (d :: rest) = filterNonWS rest := by
        simp [filterNonWS, List.filter_cons, hws]
      rw [wsSubSpec, if_pos hws, hf]
      exact IH
    · have hf : filterNonWS (d :: rest) = d :: filterNonWS rest := by
        simp [filterNonWS, List.filter_cons, hws]
      rw [wsSubSpec, if_neg hws, hf]
      cases hrest : rest with
      | nil =>
        left
        show declChars d ++ (if (List.isEmpty []) then ([] : List Char)
            else ';' :: wsSubSpec []) = interSemi ((d :: filterNonWS []).map declChars)
        simp [filterNonWS, interSemi]
      | cons r0 rest' =>
        rw [hrest] at IH
        rw [if_neg (by simp)]
        rcases IH with hsh | ⟨hne, hsh⟩
        · cases hfr : filterNonWS (r0 :: rest') with
          | nil =>
            right
            refine ⟨by simp, ?_⟩
            rw [hfr] at hsh
            rw [hsh]
            simp [interSemi]
          | cons e es =>
            left
            rw [hfr] at hsh
            rw [hsh]
            rfl
        · cases hfr : filterNonWS (r0 :: rest') with
          | nil => exact absurd hfr hne
          | cons e es =>
            right
            refine ⟨by simp, ?_⟩
            rw [hfr] at hsh
            rw [hsh]
            simp [interSemi]

theorem pyStrip_id (p : Char → Bool) (s : List Char)
    (h1 : ∀ c t, s = c :: t → p c = false)
    (h2 : ∀ c t, s.reverse = c :: t → p c = false) :
    pyStrip p s = s := by
  have hd1 : s.dropWhile p = s := by
    cases hs : s with
    | nil => rfl
    | cons c t => rw [List.dropWhile_cons, h1 c t hs, if_neg (by simp)]
  have hd2 : s.reverse.dropWhile p = s.reverse := by
    cases hs : s.reverse with
    | nil => rfl
    | cons c t => rw [List.dropWhile_cons, h2 c t hs, if_neg (by simp)]
  rw [pyStrip, hd1, hd2, List.reverse_reverse]

theorem pyStrip_append_semi (p : Char → Bool) (hp : p ';' = true) (R : List Char)
    (hh : ∃ c t, R = c :: t ∧ p c = false)
    (hl : ∃ c t, R.reverse = c :: t ∧ p c = false) :
    pyStrip p (R ++ [';']) = R := by
  obtain ⟨c, t, hR, hc⟩ := hh
  obtain ⟨c2, t2, hRr, hc2⟩ := hl
  have hd1 : (R ++ [';']).dropWhile p = R ++ [';'] := by
    rw [hR, List.cons_append, List.dropWhile_cons, hc, if_neg (by simp)]
  have hd2 : ([';'] ++ R.reverse).dropWhile p = R.reverse := by
    rw [List.singleton_append, List.dropWhile_cons, hp, if_pos rfl,
      hRr, List.dropWhile_cons, hc2, if_neg (by simp), ← hRr]
  rw [pyStrip, hd1, List.reverse_append, List.reverse_singleton, hd2,
    List.reverse_reverse]

/-- C7 (amended): on a well-formed style string — a `;`-separated list of
declarations with non-empty names and values of plain (non-whitespace,
non-semicolon) characters, where the literal text `white-space` occurs only
as the full property name of a declaration — `clean_white_space_in_style`
returns exactly the same list of declarations with every `white-space`
declaration removed, separated by single semicolons with no leading or
trailing separator.  (The unamended claim fails on other inputs: the regex
also fires mid-name, and collapsing/stripping rewrites pre-existing
separators; see the counterexample.) -/
theorem c7_sanitizer_amended (ds : List (String × String)) (h : ds.all okDecl = true) :
    clean_white_space_in_style (renderStyle ds) = renderStyle (filterNonWS ds) := by
  have hok : ∀ d ∈ ds, okDecl d = true := by
    simpa [List.all_eq_true] using h
  have hblocks : ∀ b ∈ ds.map declChars, b ≠ [] ∧ ∀ c ∈ b, goodChar c = true := by
    intro b hb
    obtain ⟨d, hd, rfl⟩ := List.mem_map.mp hb
    exact ⟨declChars_nonempty d (hok d hd), declChars_good d (hok d hd)⟩
  have hblocksF : ∀ b ∈ (filterNonWS ds).map declChars,
      b ≠ [] ∧ ∀ c ∈ b, goodChar c = true := by
    intro b hb
    obtain ⟨d, hd, rfl⟩ := List.mem_map.mp hb
    have hd2 : d ∈ ds := List.mem_of_mem_filter hd
    exact ⟨declChars_nonempty d (hok d hd2), declChars_good d (hok d hd2)⟩
  by_cases hds : ds = []
  · subst hds
    rfl
  · obtain ⟨c0, t0, hIS, hg0⟩ := interSemi_head (ds.map declChars) (by simpa using hds) hblocks
    have hneS : renderStyle ds ≠ "" := by
      intro hrs
      have hempty : interSemi (ds.map declChars) = [] := congrArg String.data hrs
      rw [hIS] at hempty
      exact List.noConfusion hempty
    rw [clean_white_space_in_style, if_neg hneS]
    have hdata : (renderStyle ds).data = interSemi (ds.map declChars) := rfl
    rw [hdata, wsSub_render ds h]
    rcases wsSubSpec_shape ds with hsh | ⟨hfne, hsh⟩
    · rw [hsh]
      cases hfr : filterNonWS ds with
      | nil => rfl
      | cons e es =>
        rw [hfr] at hblocksF
        have hsemiB : ∀ b ∈ (e :: es).map declChars, b ≠ [] ∧ ∀ c ∈ b, ¬(c = ';') :=
          fun b hb => ⟨(hblocksF b hb).1,
            fun c hc => goodChar_not_semi c ((hblocksF b hb).2 c hc)⟩
        obtain ⟨ch, th, hH, hgH⟩ := interSemi_head ((e :: es).map declChars) (by simp) hblocksF
        obtain ⟨cl, tl2, hL, hgL⟩ :=
          interSemi_last_rev ((e :: es).map declChars) (by simp) hblocksF
        rw [collapse_interSemi ((e :: es).map declChars) hsemiB false]
        rw [pyStrip_id isPyWs (interSemi ((e :: es).map declChars))
          (fun c t hct => by
            rw [hH] at hct
            obtain ⟨h1, h2⟩ := List.cons.inj hct
            rw [← h1]
            exact goodChar_not_ws ch hgH)
          (fun c t hct => by
            rw [hL] at hct
            obtain ⟨h1, h2⟩ := List.cons.inj hct
            rw [← h1]
            exact goodChar_not_ws cl hgL)]
        rw [pyStrip_id (fun c => c = ';' || c = ' ') (interSemi ((e :: es).map declChars))
          (fun c t hct => by
            rw [hH] at hct
            obtain ⟨h1, h2⟩ := List.cons.inj hct
            rw [← h1]
            exact goodChar_not_semiSp ch hgH)
          (fun c t hct => by
            rw [hL] at hct
            obtain ⟨h1, h2⟩ := List.cons.inj hct
            rw [← h1]
            exact goodChar_not_semiSp cl hgL)]
        rfl
    · rw [hsh]
      cases hfr : filterNonWS ds with
      | nil => exact absurd hfr hfne
      | cons e es =>
        rw [hfr] at hblocksF
        have hsemiB : ∀ b ∈ (e :: es).map declChars, b ≠ [] ∧ ∀ c ∈ b, ¬(c = ';') :=
          fun b hb => ⟨(hblocksF b hb).1,
            fun c hc => goodChar_not_semi c ((hblocksF b hb).2 c hc)⟩
        obtain ⟨ch, th, hH, hgH⟩ := interSemi_head ((e :: es).map declChars) (by simp) hblocksF
        obtain ⟨cl, tl2, hL, hgL⟩ :=
          interSemi_last_rev ((e :: es).map declChars) (by simp) hblocksF
        rw [collapse_interSemi_semi ((e :: es).map declChars) (by simp) hsemiB false]
        rw [pyStrip_id isPyWs (interSemi ((e :: es).map declChars) ++ [';'])
          (fun c t hct => by
            rw [hH, List.cons_append] at hct
            obtain ⟨h1, h2⟩ := List.cons.inj hct
            rw [← h1]
            exact goodChar_not_ws ch hgH)
          (fun c t hct => by
            rw [List.reverse_append, List.reverse_singleton, List.singleton_append] at hct
            obtain ⟨h1, h2⟩ := List.cons.inj hct
            rw [← h1]
            decide)]
        rw [pyStrip_append_semi (fun c => c = ';' || c = ' ') (by decide)
          (interSemi ((e :: es).map declChars))
          ⟨ch, th, hH, goodChar_not_semiSp ch hgH⟩
          ⟨cl, tl2, hL, goodChar_not_semiSp cl hgL⟩]
        rfl

/-- Witness: a concrete well-formed style list on which the amended C7
statement evaluates. -/
theorem c7_sanitizer_amended_witness :
    ([("color", "red"), ("white-space", "pre"), ("font", "12px")]
        : List (String × String)).all okDecl = true ∧
      clean_white_space_in_style
          (renderStyle [("color", "red"), ("white-space", "pre"), ("font", "12px")])
        = renderStyle (filterNonWS [("color", "red"), ("white-space", "pre"), ("font", "12px")]) :=
  ⟨by decide, c7_sanitizer_amended _ (by decide)⟩
